import Mathlib

/-!
# ofdmlib: band-pass (Nyquist) modulator and the OFDM codec pipelines

Shallow embedding of

* `src/codec/band-pass-modulator/bandpass.cpp`
  (`BandPassModulator::Configure`, `Close`, `Modulate()`, `Modulate(double*)`, `Demodulate`),
* `src/codec/ofdmcodec.cpp` (`OFDMCodec::ProcessRxBuffer`, `Decode`, `Encode`,
  `ProcessTxBuffer`).

Conventions of the embedding.

* Samples (`double`) are elements of an arbitrary ring `α`: exact arithmetic, in which negation
  and multiplication by `+1`/`-1` are exact.  Concrete evaluations use `α = ℤ`.
* A buffer pointer is an `Option (List _)`: `none` is `nullptr`, `some l` is a pointer to the
  first element of an array holding exactly the elements of `l`.  `fftw_complex` is `double[2]`,
  modelled as a pair `(re, im)`.  The two buffers of a modulator are disjoint arrays.
* C++ undefined behaviour (dereferencing `nullptr`, indexing outside the array) is a `Fault`;
  a normal return carries the `int` return code.
* Every element access is appended to a trace, in program order.
* `uint16_t`/`uint32_t` values are natural numbers; `uint32_t` arithmetic is reduced modulo
  `2^32` explicitly.  The `int` counters of `Modulate` are bounded by `2 * 65535 + 4` because
  `nPoints` is a `uint16_t`, so they are natural numbers without reduction.
-/

namespace Ofdmlib

deriving instance DecidableEq for Except

/-! ## Memory model -/

/-- One access to an element of a sample buffer.  `readComplex i p` is a read of
`complexBuffer[i][p]`, `writeDouble j` a write of `doubleBuffer[j]` (for `Modulate(double*)`:
of `pDouble[j]`). -/
inductive Access where
  | readComplex (i : Nat) (p : Fin 2)
  | writeComplex (i : Nat) (p : Fin 2)
  | readDouble (j : Nat)
  | writeDouble (j : Nat)
  deriving DecidableEq

/-- Undefined behaviour reached by an execution, with the offending access.  `outOfFuel` is the
artefact of the bounded loop model; it is shown never to occur (`forLoop_spec`). -/
inductive Fault where
  | nullPointer (a : Access)
  | outOfBounds (a : Access)
  | outOfFuel
  deriving DecidableEq

/-- The memory the modulator works on: the pointees of its two buffer pointers and the trace of
accesses made so far. -/
structure Mem (α : Type) where
  complexBuffer : Option (List (α × α))
  doubleBuffer : Option (List α)
  trace : List Access
  deriving DecidableEq

/-- Component `p` of an `fftw_complex` value: `c[0]` is the real part, `c[1]` the imaginary
part. -/
def part {α : Type} (c : α × α) (p : Fin 2) : α :=
  if p = 0 then c.1 else c.2

/-- The `fftw_complex` value `c` after `c[p] = v`. -/
def setPart {α : Type} (c : α × α) (p : Fin 2) (v : α) : α × α :=
  if p = 0 then (v, c.2) else (c.1, v)

/-- Read of `complexBuffer[i][p]`. -/
def Mem.loadComplex {α : Type} (m : Mem α) (i : Nat) (p : Fin 2) : Except Fault (α × Mem α) :=
  match m.complexBuffer with
  | none => .error (.nullPointer (.readComplex i p))
  | some cb =>
    match cb[i]? with
    | none => .error (.outOfBounds (.readComplex i p))
    | some c => .ok (part c p, { m with trace := m.trace ++ [.readComplex i p] })

/-- Write `complexBuffer[i][p] = v`. -/
def Mem.storeComplex {α : Type} (m : Mem α) (i : Nat) (p : Fin 2) (v : α) : Except Fault (Mem α) :=
  match m.complexBuffer with
  | none => .error (.nullPointer (.writeComplex i p))
  | some cb =>
    match cb[i]? with
    | none => .error (.outOfBounds (.writeComplex i p))
    | some c =>
      .ok { m with complexBuffer := some (cb.set i (setPart c p v)),
                   trace := m.trace ++ [.writeComplex i p] }

/-- Read of `doubleBuffer[j]`. -/
def Mem.loadDouble {α : Type} (m : Mem α) (j : Nat) : Except Fault (α × Mem α) :=
  match m.doubleBuffer with
  | none => .error (.nullPointer (.readDouble j))
  | some db =>
    match db[j]? with
    | none => .error (.outOfBounds (.readDouble j))
    | some v => .ok (v, { m with trace := m.trace ++ [.readDouble j] })

/-- Write `doubleBuffer[j] = v`. -/
def Mem.storeDouble {α : Type} (m : Mem α) (j : Nat) (v : α) : Except Fault (Mem α) :=
  match m.doubleBuffer with
  | none => .error (.nullPointer (.writeDouble j))
  | some db =>
    if j < db.length then
      .ok { m with doubleBuffer := some (db.set j v), trace := m.trace ++ [.writeDouble j] }
    else .error (.outOfBounds (.writeDouble j))

/-- The loop `for (i = i0; cond(i); i = next(i)) body`, with the remaining loop variables and the
memory in the state `S`.  The loop condition is tested before every iteration, as in C++; `fuel`
bounds the number of iterations and an exhausted bound is the fault `outOfFuel`. -/
def forLoop {S : Type} (cond : Nat → Bool) (next : Nat → Nat) (body : Nat → S → Except Fault S) :
    Nat → Nat → S → Except Fault S
  | 0, i, s => if cond i then .error .outOfFuel else .ok s
  | fuel + 1, i, s =>
    if cond i then
      match body i s with
      | .ok s' => forLoop cond next body fuel (next i) s'
      | .error e => .error e
    else .ok s

/-- Reduction of a value to `uint32_t`. -/
def u32 (n : Nat) : Nat := n % 4294967296

/-! ## `BandPassModulator` -/

/-- The data members of `BandPassModulator`, the buffer pointers together with their pointees.
`nPoints` is a `uint16_t`. -/
structure BandPassModulator (α : Type) where
  nPoints : Nat
  complexBuffer : Option (List (α × α))
  doubleBuffer : Option (List α)
  configured : Nat
  deriving DecidableEq

/-- What a member function leaves behind when it returns: the return code, the object
and the accesses it made. -/
structure Outcome (α : Type) where
  ret : Int
  self : BandPassModulator α
  trace : List Access
  deriving DecidableEq

namespace BandPassModulator

variable {α : Type}

/-- The memory seen by a member function on entry. -/
def mem (self : BandPassModulator α) : Mem α :=
  { complexBuffer := self.complexBuffer, doubleBuffer := self.doubleBuffer, trace := [] }

/-- The object and trace after a member function that returns `ret` with memory `m`. -/
def finish (self : BandPassModulator α) (ret : Int) (m : Mem α) : Outcome α :=
  { ret := ret,
    self := { self with complexBuffer := m.complexBuffer, doubleBuffer := m.doubleBuffer },
    trace := m.trace }

/-- Embedding of `BandPassModulator::Configure(uint16_t fftPoints, fftw_complex *pComplex, double *pDouble)`
(bandpass.cpp 20-28). -/
def Configure (_self : BandPassModulator α) (fftPoints : Nat) (pComplex : Option (List (α × α)))
    (pDouble : Option (List α)) : Outcome α :=
  { ret := 0,
    self := { nPoints := fftPoints, complexBuffer := pComplex, doubleBuffer := pDouble,
              configured := 1 },
    trace := [] }

/-- Embedding of `BandPassModulator::Close()` (bandpass.cpp 37-44). -/
def Close (_self : BandPassModulator α) : Outcome α :=
  { ret := 0,
    self := { nPoints := 0, complexBuffer := none, doubleBuffer := none, configured := 0 },
    trace := [] }

variable [Ring α]

/-- Body of the even loop of `Modulate()` (bandpass.cpp 63-70); the state is `(j, memory)`. -/
def modulateEvenBody (i : Nat) (st : Nat × Mem α) : Except Fault (Nat × Mem α) := do
  let j := st.1
  let m := st.2
  let (re0, m) ← m.loadComplex i 0
  let m ← m.storeDouble j re0
  let (im0, m) ← m.loadComplex i 1
  let m ← m.storeDouble (j + 1) im0
  let (re1, m) ← m.loadComplex (i + 1) 0
  let m ← m.storeDouble (j + 2) (-re1)
  let (im1, m) ← m.loadComplex (i + 1) 1
  let m ← m.storeDouble (j + 3) (-im1)
  pure (j + 4, m)

/-- Body of the odd loop of `Modulate()` (bandpass.cpp 83-92); the state is `(j, s, memory)`. -/
def modulateOddBody (i : Nat) (st : Nat × Int × Mem α) : Except Fault (Nat × Int × Mem α) := do
  let j := st.1
  let s := st.2.1
  let m := st.2.2
  let (re, m) ← m.loadComplex i 0
  let m ← m.storeDouble j ((s : α) * re)
  let j := j + 1
  let (im, m) ← m.loadComplex i 1
  let m ← m.storeDouble j ((s : α) * im)
  let j := j + 1
  let s := s * (-1)
  pure (j, s, m)

/-- Embedding of `BandPassModulator::Modulate()` (bandpass.cpp 54-96). -/
def Modulate (self : BandPassModulator α) : Except Fault (Outcome α) :=
  if self.nPoints % 2 = 0 then
    match forLoop (fun i => decide (i < self.nPoints)) (fun i => i + 2) modulateEvenBody
        self.nPoints 0 (0, self.mem) with
    | .ok st => .ok (self.finish 0 st.2)
    | .error e => .error e
  else
    match forLoop (fun i => decide (i < self.nPoints)) (fun i => i + 1) modulateOddBody
        self.nPoints 0 (0, 1, self.mem) with
    | .ok st => .ok (self.finish 0 st.2.2)
    | .error e => .error e

/-- Body of the even loop of `Modulate(double*)` (bandpass.cpp 118-120); `i` is the only loop
counter in use (the local `j` is never read). -/
def modulateDoubleEvenBody (i : Nat) (m : Mem α) : Except Fault (Mem α) := do
  let (v, m) ← m.loadDouble i
  let m ← m.storeDouble i (-v)
  let (w, m) ← m.loadDouble (i + 1)
  let m ← m.storeDouble (i + 1) (-w)
  pure m

/-- Body of the odd loop of `Modulate(double*)` (bandpass.cpp 132-141); the state is
`(j, s, memory)`. -/
def modulateDoubleOddBody (_i : Nat) (st : Nat × Int × Mem α) :
    Except Fault (Nat × Int × Mem α) := do
  let j := st.1
  let s := st.2.1
  let m := st.2.2
  let (v, m) ← m.loadDouble j
  let m ← m.storeDouble j ((s : α) * v)
  let j := j + 1
  let (w, m) ← m.loadDouble j
  let m ← m.storeDouble j ((s : α) * w)
  let j := j + 1
  let s := s * (-1)
  pure (j, s, m)

/-- Embedding of `BandPassModulator::Modulate(double *pDouble)` (bandpass.cpp 108-145).  It touches
no data member besides reading `nPoints`; it returns the return code, the pointee of `pDouble`
and the accesses to it (`readDouble`/`writeDouble` of the trace refer to `pDouble`). -/
def ModulateDouble (self : BandPassModulator α) (pDouble : Option (List α)) :
    Except Fault (Int × Option (List α) × List Access) :=
  let m : Mem α := { complexBuffer := self.complexBuffer, doubleBuffer := pDouble, trace := [] }
  if self.nPoints % 2 = 0 then
    match forLoop (fun i => decide (i < self.nPoints * 2)) (fun i => i + 4) modulateDoubleEvenBody
        self.nPoints 2 m with
    | .ok m => .ok (0, m.doubleBuffer, m.trace)
    | .error e => .error e
  else
    match forLoop (fun i => decide (i < self.nPoints)) (fun i => i + 1) modulateDoubleOddBody
        self.nPoints 0 (0, 1, m) with
    | .ok st => .ok (0, st.2.2.doubleBuffer, st.2.2.trace)
    | .error e => .error e

/-- Body of the even loop of `Demodulate` (bandpass.cpp 166-175); the state is `(j, memory)`,
`j` a `uint32_t`. -/
def demodulateEvenBody (i : Nat) (st : Nat × Mem α) : Except Fault (Nat × Mem α) := do
  let j := st.1
  let m := st.2
  let (v0, m) ← m.loadDouble j
  let m ← m.storeComplex i 0 v0
  let j := u32 (j + 1)
  let (v1, m) ← m.loadDouble j
  let m ← m.storeComplex i 1 v1
  let j := u32 (j + 1)
  let (v2, m) ← m.loadDouble j
  let m ← m.storeComplex (u32 (i + 1)) 0 (-v2)
  let j := u32 (j + 1)
  let (v3, m) ← m.loadDouble j
  let m ← m.storeComplex (u32 (i + 1)) 1 (-v3)
  let j := u32 (j + 1)
  pure (j, m)

/-- Body of the odd loop of `Demodulate` (bandpass.cpp 188-197); the state is `(j, s, memory)`,
`j` a `uint32_t`. -/
def demodulateOddBody (i : Nat) (st : Nat × Int × Mem α) : Except Fault (Nat × Int × Mem α) := do
  let j := st.1
  let s := st.2.1
  let m := st.2.2
  let (v0, m) ← m.loadDouble j
  let m ← m.storeComplex i 0 ((s : α) * v0)
  let j := u32 (j + 1)
  let (v1, m) ← m.loadDouble j
  let m ← m.storeComplex i 1 ((s : α) * v1)
  let j := u32 (j + 1)
  let s := s * (-1)
  pure (j, s, m)

/-- Embedding of `BandPassModulator::Demodulate(uint32_t offset)` (bandpass.cpp 156-201); `offset` is a
`uint32_t`, and so are the loop counters `i` and `j`. -/
def Demodulate (self : BandPassModulator α) (offset : Nat) : Except Fault (Outcome α) :=
  if self.nPoints % 2 = 0 then
    match forLoop (fun i => decide (i < self.nPoints)) (fun i => u32 (i + 2)) demodulateEvenBody
        self.nPoints 0 (offset, self.mem) with
    | .ok st => .ok (self.finish 0 st.2)
    | .error e => .error e
  else
    match forLoop (fun i => decide (i < self.nPoints)) (fun i => u32 (i + 1)) demodulateOddBody
        self.nPoints 0 (offset, 1, self.mem) with
    | .ok st => .ok (self.finish 0 st.2.2)
    | .error e => .error e

/-! ### Specification vocabulary for the modulator -/

/-- The sample `v` of complex index `i` with the sign `(-1)^i`. -/
def signed (i : Nat) (v : α) : α := if i % 2 = 0 then v else -v

/-- The multiplier `s` after `k` executions of `s *= -1`, starting from `1`. -/
def signOf (k : Nat) : Int := if k % 2 = 0 then 1 else -1

/-- State of the real buffer after the first `w` reals of a symbol have been written by
`Modulate()` from `cb` into a buffer that held `db`. -/
def ModInv (cb : List (α × α)) (db : List α) (w : Nat) (m : Mem α) : Prop :=
  m.complexBuffer = some cb ∧ ∃ db', m.doubleBuffer = some db' ∧ db'.length = db.length ∧
    (∀ t c, t < w → cb[t / 2]? = some c →
      db'[t]? = some (signed (t / 2) (if t % 2 = 0 then c.1 else c.2))) ∧
    (∀ t, w ≤ t → db'[t]? = db[t]?)

/-- State of the complex buffer after the first `w` samples of a symbol have been reconstructed
by `Demodulate(off)` from `db` into a buffer that held `cb`. -/
def DemodInv (cb : List (α × α)) (db : List α) (off w : Nat) (m : Mem α) : Prop :=
  m.doubleBuffer = some db ∧ ∃ cb', m.complexBuffer = some cb' ∧ cb'.length = cb.length ∧
    (∀ i v0 v1, i < w → db[off + 2 * i]? = some v0 → db[off + 2 * i + 1]? = some v1 →
      cb'[i]? = some (signed i v0, signed i v1)) ∧
    (∀ i, w ≤ i → cb'[i]? = cb[i]?)

/-- State of the buffer `pDouble` after `Modulate(double*)` has processed its first `w` reals;
`db` is the buffer on entry. -/
def InPlaceInv (cbo : Option (List (α × α))) (db : List α) (w : Nat) (m : Mem α) : Prop :=
  m.complexBuffer = cbo ∧ ∃ db', m.doubleBuffer = some db' ∧ db'.length = db.length ∧
    (∀ t v, t < w → db[t]? = some v → db'[t]? = some (signed (t / 2) v)) ∧
    (∀ t, w ≤ t → db'[t]? = db[t]?)

/-- The multiplier of the claim: `s_0 = +1`, `s_(i+1) = -s_i`. -/
def altSign : Nat → Int
  | 0 => 1
  | i + 1 => -altSign i

/-- The accesses of `Modulate()` for the samples `0 .. n - 1`, in program order: sample `i` is
read part by part and each part is written to `doubleBuffer[2i]`, `doubleBuffer[2i+1]`. -/
def modulateTrace : Nat → List Access
  | 0 => []
  | n + 1 => modulateTrace n ++
      [.readComplex n 0, .writeDouble (2 * n), .readComplex n 1, .writeDouble (2 * n + 1)]

/-- The accesses of `Demodulate(off)` for the samples `0 .. n - 1`, in program order, when the
cursor does not wrap: the reals at `off + 2i`, `off + 2i + 1` are read and written to the two
parts of sample `i`. -/
def demodulateTrace (off : Nat) : Nat → List Access
  | 0 => []
  | n + 1 => demodulateTrace off n ++
      [.readDouble (off + 2 * n), .writeComplex n 0, .readDouble (off + 2 * n + 1),
       .writeComplex n 1]

/-- The odd branch of `Modulate()` (bandpass.cpp 76-93, the per-sample loop with the multiplier
`s`) run on its own, whatever the parity of `nPoints`. -/
def ModulateOddBranch (self : BandPassModulator α) : Except Fault (Outcome α) :=
  match forLoop (fun i => decide (i < self.nPoints)) (fun i => i + 1) modulateOddBody
      self.nPoints 0 (0, 1, self.mem) with
  | .ok st => .ok (self.finish 0 st.2.2)
  | .error e => .error e

/-- The even branch of `Modulate()` (bandpass.cpp 59-71, the pairwise loop) run on its own. -/
def ModulateEvenBranch (self : BandPassModulator α) : Except Fault (Outcome α) :=
  match forLoop (fun i => decide (i < self.nPoints)) (fun i => i + 2) modulateEvenBody
      self.nPoints 0 (0, self.mem) with
  | .ok st => .ok (self.finish 0 st.2)
  | .error e => .error e

/-- What `Demodulate` may do to the memory `m0` it starts from, for `N` points: the real buffer
is as before, the complex buffer keeps its length and its samples from index `N` on, and every
access added to the trace is a read of the real buffer or a write of a sample below `N`. -/
def DemodFrame (N : Nat) (m0 m : Mem α) : Prop :=
  m.doubleBuffer = m0.doubleBuffer ∧
  (∀ cb, m0.complexBuffer = some cb → ∃ cb', m.complexBuffer = some cb' ∧
    cb'.length = cb.length ∧ ∀ i, N ≤ i → cb'[i]? = cb[i]?) ∧
  (m0.complexBuffer = none → m.complexBuffer = none) ∧
  ∃ tr, m.trace = m0.trace ++ tr ∧
    ∀ a, a ∈ tr → (∃ j, a = .readDouble j) ∨ ∃ i p, a = .writeComplex i p ∧ i < N

/-- What `Modulate()` may do to the memory `m0` it starts from: the complex buffer is as
before and the real buffer keeps its length. -/
def ModFrame (m0 m : Mem α) : Prop :=
  m.complexBuffer = m0.complexBuffer ∧
  ∀ db, m0.doubleBuffer = some db → ∃ db', m.doubleBuffer = some db' ∧ db'.length = db.length

/-- One call in a sequence of calls on a configured instance: `Modulate()` or
`Demodulate(offset)`. -/
inductive Op where
  | modulate
  | demodulate (offset : Nat)
  deriving DecidableEq

/-- The call `op` on `self`. -/
def applyOp (self : BandPassModulator α) : Op → Except Fault (Outcome α)
  | .modulate => self.Modulate
  | .demodulate offset => self.Demodulate offset

/-- The object after the sequence of calls `ops`, each made on the object the previous one
left. -/
def runOps (self : BandPassModulator α) : List Op → Except Fault (BandPassModulator α)
  | [] => .ok self
  | op :: ops =>
    match self.applyOp op with
    | .ok out => runOps out.self ops
    | .error e => .error e

/-- An instance with `N` points whose buffers are bound to arrays of `lc` samples and `ld`
reals. -/
def Shape (N lc ld : Nat) (self : BandPassModulator α) : Prop :=
  self.nPoints = N ∧ (∃ cb, self.complexBuffer = some cb ∧ cb.length = lc) ∧
    ∃ db, self.doubleBuffer = some db ∧ db.length = ld

end BandPassModulator

/-! ## `OFDMCodec::ProcessRxBuffer` -/

namespace OFDMCodec

/-- A call of the codec to one of its collaborators, with its scalar arguments. -/
inductive Call where
  | FindSymbolStart (nBytes : Nat)
  | NyquistDemodulate (symbolStart : Nat)
  | ComputeTransform
  | Normalise
  | QamDemodulate (nBytes : Nat)
  deriving DecidableEq

/-- The collaborators of the receive path (`m_detector`, `m_NyquistModulator`, `m_fft`, `m_qam`),
whose code is outside `ofdmcodec.cpp`: state transformers on the codec state `σ` (the
sub-objects with their buffers).  `β` is the sample type of the input buffer; the output buffer
is a list of bytes.

* `FindSymbolStart s input nBytes` is `m_detector.FindSymbolStart(input, nBytes)`: the value
  stored in `long int symbolStart`, and the state after the call;
* `NyquistDemodulate s symbolStart` is
  `m_NyquistModulator.Demodulate(m_detector.m_BlockRingBuffer, m_fft.in, symbolStart)`;
* `ComputeTransform`, `Normalise` are `m_fft.ComputeTransform()`, `m_fft.Normalise()`;
* `QamDemodulate s output nBytes` is `m_qam.Demodulate((DoubleVec &) m_fft.out, output, nBytes)`:
  the output buffer and the state after the call. -/
structure Collaborators (σ β : Type) where
  FindSymbolStart : σ → List β → Nat → Int × σ
  NyquistDemodulate : σ → Nat → σ
  ComputeTransform : σ → σ
  Normalise : σ → σ
  QamDemodulate : σ → List Nat → Nat → List Nat × σ

/-- What `ProcessRxBuffer` leaves behind: the `size_t` it returns, the output byte buffer, the
codec state and the collaborator calls in program order. -/
structure RxResult (σ : Type) where
  ret : Nat
  output : List Nat
  state : σ
  calls : List Call

/-- Embedding of `OFDMCodec::ProcessRxBuffer(const double *input, uint8_t *output, size_t nBytes)`
(ofdmcodec.cpp 125-150). -/
def ProcessRxBuffer {σ β : Type} (c : Collaborators σ β) (s : σ) (input : List β)
    (output : List Nat) (nBytes : Nat) : RxResult σ :=
  let found := c.FindSymbolStart s input nBytes
  let symbolStart : Int := found.1
  if symbolStart ≥ 0 then
    let s1 := c.NyquistDemodulate found.2 symbolStart.toNat
    let s2 := c.ComputeTransform s1
    let s3 := c.Normalise s2
    let dem := c.QamDemodulate s3 output nBytes
    { ret := nBytes, output := dem.1, state := dem.2,
      calls := [.FindSymbolStart nBytes, .NyquistDemodulate symbolStart.toNat,
                .ComputeTransform, .Normalise, .QamDemodulate nBytes] }
  else
    { ret := 0, output := output, state := found.2, calls := [.FindSymbolStart nBytes] }

/-! ### `OFDMCodec::Decode` -/

/-- Conversion of an integer to `size_t` (64 bits wide). -/
def sizeT (z : Int) : Nat := (z % 18446744073709551616).toNat

/-- What `Decode` (a `void` function) leaves behind: the output byte buffer, the codec state and
the collaborator calls in program order. -/
structure DecodeResult (σ : Type) where
  output : List Nat
  state : σ
  calls : List Call

/-- Embedding of `OFDMCodec::Decode(const double *input, uint8_t *output, size_t nBytes)`
(ofdmcodec.cpp 96-112).  The local `symbolStart` is a `size_t`: its initial value is the
conversion of `-1`, and the guard compares unsigned values.  The value assigned to it inside the
block is not read again (the call of the Nyquist demodulator is commented out). -/
def Decode {σ β : Type} (c : Collaborators σ β) (s : σ) (input : List β)
    (output : List Nat) (nBytes : Nat) : DecodeResult σ :=
  let symbolStart : Nat := sizeT (-1)
  if symbolStart ≥ 0 then
    let found := c.FindSymbolStart s input nBytes
    let s1 := c.ComputeTransform found.2
    let s2 := c.Normalise s1
    let dem := c.QamDemodulate s2 output nBytes
    { output := dem.1, state := dem.2,
      calls := [.FindSymbolStart nBytes, .ComputeTransform, .Normalise, .QamDemodulate nBytes] }
  else
    { output := output, state := s, calls := [] }

/-! ### `OFDMCodec::Encode` and `OFDMCodec::ProcessTxBuffer` -/

/-- A call of the transmit path to one of its collaborators, with its arguments: for a pointer
`&output[dest]` the index `dest` and the reals the pointer points to at the time of the call;
for the framer the whole buffer, the body length and the prefix length. -/
inductive TxCall (β : Type) where
  | QamModulate (input : List Nat) (nBytes : Nat)
  | ComputeTransform (dest : Nat) (view : List β)
  | NyquistModulate (dest : Nat) (view : List β)
  | AddCyclicPrefix (buffer : List β) (symbolSize prefixSize : Nat)
  deriving DecidableEq

/-- The collaborators of the transmit path, whose code is outside `ofdmcodec.cpp`, as functions
on the codec state `σ` and on the reals they are handed (`β` is the sample type).

* `QamModulate s input nBytes` is `m_qam.Modulate(input, (DoubleVec &) m_fft.in, nBytes)`;
* `ComputeTransform s view` is `m_fft.ComputeTransform((fftw_complex *) p)` for a pointer `p`
  to the reals `view`: the reals it leaves there, and the state;
* `NyquistModulate s view` is `m_NyquistModulator.Modulate(p)`, likewise;
* `AddCyclicPrefix s buffer symbolSize prefixSize` is
  `AddCyclicPrefix(buffer, symbolSize, prefixSize)`: the buffer it leaves, and the state. -/
structure TxCollaborators (σ β : Type) where
  QamModulate : σ → List Nat → Nat → σ
  ComputeTransform : σ → List β → List β × σ
  NyquistModulate : σ → List β → List β × σ
  AddCyclicPrefix : σ → List β → Nat → Nat → List β × σ

/-- What `Encode` / `ProcessTxBuffer` (both `void`) leave behind: the destination buffer, the
codec state and the collaborator calls in program order. -/
structure TxResult (σ β : Type) where
  output : List β
  state : σ
  calls : List (TxCall β)

/-- Embedding of `OFDMCodec::Encode(const uint8_t *input, double *output, size_t nBytes)`
(ofdmcodec.cpp 57-67).  `nFFTPoints` and `PrefixSize` are the fields of `GetSettings()`.  A
callee handed `&output[PrefixSize]` sees the reals from that index on and leaves the ones below
it alone. -/
def Encode {σ β : Type} (c : TxCollaborators σ β) (nFFTPoints PrefixSize : Nat) (s : σ)
    (input : List Nat) (output : List β) (nBytes : Nat) : TxResult σ β :=
  let s1 := c.QamModulate s input nBytes
  let view1 := output.drop PrefixSize
  let t := c.ComputeTransform s1 view1
  let output1 := output.take PrefixSize ++ t.1
  let view2 := output1.drop PrefixSize
  let m := c.NyquistModulate t.2 view2
  let output2 := output1.take PrefixSize ++ m.1
  let f := c.AddCyclicPrefix m.2 output2 (nFFTPoints * 2) PrefixSize
  { output := f.1, state := f.2,
    calls := [.QamModulate input nBytes, .ComputeTransform PrefixSize view1,
              .NyquistModulate PrefixSize view2,
              .AddCyclicPrefix output2 (nFFTPoints * 2) PrefixSize] }

/-- Embedding of
`OFDMCodec::ProcessTxBuffer(const uint8_t *input, double *txBuffer, size_t nBytes)`
(ofdmcodec.cpp 69-79). -/
def ProcessTxBuffer {σ β : Type} (c : TxCollaborators σ β) (nFFTPoints PrefixSize : Nat) (s : σ)
    (input : List Nat) (txBuffer : List β) (nBytes : Nat) : TxResult σ β :=
  let s1 := c.QamModulate s input nBytes
  let view1 := txBuffer.drop PrefixSize
  let t := c.ComputeTransform s1 view1
  let txBuffer1 := txBuffer.take PrefixSize ++ t.1
  let view2 := txBuffer1.drop PrefixSize
  let m := c.NyquistModulate t.2 view2
  let txBuffer2 := txBuffer1.take PrefixSize ++ m.1
  let f := c.AddCyclicPrefix m.2 txBuffer2 (nFFTPoints * 2) PrefixSize
  { output := f.1, state := f.2,
    calls := [.QamModulate input nBytes, .ComputeTransform PrefixSize view1,
              .NyquistModulate PrefixSize view2,
              .AddCyclicPrefix txBuffer2 (nFFTPoints * 2) PrefixSize] }

end OFDMCodec

/-! ## Concrete instances used in the evaluations -/

/-- The instance of the even sign-pattern test: `N = 4`, samples `(1,2),(3,4),(5,6),(7,8)`. -/
def evenInstance : BandPassModulator ℤ :=
  ⟨4, some [(1, 2), (3, 4), (5, 6), (7, 8)], some [0, 0, 0, 0, 0, 0, 0, 0], 1⟩

/-- The instance of the odd sign-pattern test: `N = 3`, samples `(1,1),(1,1),(1,1)`. -/
def oddInstance : BandPassModulator ℤ :=
  ⟨3, some [(1, 1), (1, 1), (1, 1)], some [0, 0, 0, 0, 0, 0], 1⟩

/-- A real buffer of `2^32 + 2` elements: zeros below index `2^32`, then two ones. -/
def wrapBuffer : List ℤ := List.replicate 4294967296 0 ++ [1, 1]

/-- An instance with `N = 2` whose real buffer is longer than `2^32`. -/
def wrapInstance : BandPassModulator ℤ := ⟨2, some [(0, 0), (0, 0)], some wrapBuffer, 1⟩

/-- An instance with `N = 2` whose symbol `(1,2),(3,4)` sits at offset 1 of the real buffer. -/
def offsetInstance : BandPassModulator ℤ :=
  ⟨2, some [(0, 0), (0, 0)], some [9, 1, 2, -3, -4, 9], 1⟩

/-- An instance with `N = 2` and a real buffer of exactly `2 * N = 4` elements. -/
def shortInstance : BandPassModulator ℤ := ⟨2, some [(0, 0), (0, 0)], some [1, 2, 3, 4], 1⟩

/-- An instance with `N = 3` whose real buffer, of 8 elements, is longer than `2 * N`. -/
def paddedInstance : BandPassModulator ℤ :=
  ⟨3, some [(1, 2), (3, 4), (5, 6)], some [9, 9, 9, 9, 9, 9, 9, 9], 1⟩

namespace OFDMCodec

/-- Stand-in collaborators whose locator reports `symbolStart`; the QAM demapper stand-in
overwrites the first `nBytes` bytes of the output with 255. -/
def standIn (symbolStart : Int) : Collaborators Unit ℤ :=
  { FindSymbolStart := fun s _ _ => (symbolStart, s),
    NyquistDemodulate := fun s _ => s,
    ComputeTransform := fun s => s,
    Normalise := fun s => s,
    QamDemodulate := fun s output nBytes => (List.replicate nBytes 255 ++ output.drop nBytes, s) }

/-- Stand-in transmit collaborators for `N = 2`; the state counts the calls.  The transform
stand-in leaves `1, 2, 3, 4` in the first four reals it is handed, the interleaver stand-in
negates the third and fourth real, the framer stand-in copies the last `prefixSize` reals of
the body in front of it. -/
def txStandIn : TxCollaborators Nat ℤ :=
  { QamModulate := fun s _ _ => s + 1,
    ComputeTransform := fun s view => ([1, 2, 3, 4] ++ view.drop 4, s + 1),
    NyquistModulate := fun s view =>
      (view.take 2 ++ ((view.drop 2).take 2).map (fun v => -v) ++ view.drop 4, s + 1),
    AddCyclicPrefix := fun s buffer symbolSize prefixSize =>
      ((buffer.drop symbolSize).take prefixSize ++ buffer.drop prefixSize, s + 1) }

end OFDMCodec

/-! ## Lemmas on lists -/

theorem replicate_append_length {α : Type} (n : Nat) (a : α) (l : List α) :
    (List.replicate n a ++ l).length = n + l.length := by
  rw [List.length_append, List.length_replicate]

theorem replicate_append_low {α : Type} (n j : Nat) (a : α) (l : List α) (h : j < n) :
    (List.replicate n a ++ l)[j]? = some a := by
  rw [List.getElem?_append_left (by rw [List.length_replicate]; exact h)]
  exact List.getElem?_replicate_of_lt h

theorem replicate_append_high {α : Type} (n j : Nat) (a : α) (l : List α) :
    (List.replicate n a ++ l)[n + j]? = l[j]? := by
  rw [List.getElem?_append_right (by rw [List.length_replicate]; omega), List.length_replicate]
  congr 1
  omega

/-! ## Lemmas on the memory model -/

namespace BandPassModulator

theorem except_bind_ok {ε β γ : Type} (x : Except ε β) (f : β → Except ε γ) (c : γ) :
    (x >>= f) = .ok c ↔ ∃ b, x = .ok b ∧ f b = .ok c := by
  cases x with
  | error e => simp [bind, Except.bind]
  | ok b => simp [bind, Except.bind]

theorem demodFrame_refl {α : Type} (N : Nat) (m : Mem α) : DemodFrame N m m :=
  ⟨rfl, fun cb h => ⟨cb, h, rfl, fun _ _ => rfl⟩, fun h => h, [], by simp, by simp⟩

theorem demodFrame_load {α : Type} (N : Nat) (m0 m m' : Mem α) (j : Nat) (v : α)
    (h : m.loadDouble j = .ok (v, m')) (hF : DemodFrame N m0 m) : DemodFrame N m0 m' := by
  unfold Mem.loadDouble at h
  split at h
  · cases h
  · split at h
    · cases h
    · cases h
      obtain ⟨hd, hc, hn, tr, htr, hall⟩ := hF
      refine ⟨hd, hc, hn, tr ++ [.readDouble j], by simp [htr], ?_⟩
      intro a ha
      rw [List.mem_append] at ha
      rcases ha with ha | ha
      · exact hall a ha
      · simp at ha
        exact Or.inl ⟨j, ha⟩

theorem demodFrame_store {α : Type} (N : Nat) (m0 m m' : Mem α) (i : Nat) (p : Fin 2) (v : α)
    (hi : i < N) (h : m.storeComplex i p v = .ok m') (hF : DemodFrame N m0 m) :
    DemodFrame N m0 m' := by
  unfold Mem.storeComplex at h
  split at h
  · cases h
  · rename_i cbm hcbm
    split at h
    · cases h
    · rename_i c hci
      cases h
      obtain ⟨hd, hc, hn, tr, htr, hall⟩ := hF
      refine ⟨hd, ?_, ?_, tr ++ [.writeComplex i p], by simp [htr], ?_⟩
      · intro cb hcb
        obtain ⟨cb', hcb', hlen, hhi⟩ := hc cb hcb
        rw [hcbm] at hcb'
        cases hcb'
        refine ⟨_, rfl, by simp [hlen], ?_⟩
        intro t ht
        rw [List.getElem?_set, if_neg (by omega)]
        exact hhi t ht
      · intro hnone
        have := hn hnone
        rw [hcbm] at this
        cases this
      · intro a ha
        rw [List.mem_append] at ha
        rcases ha with ha | ha
        · exact hall a ha
        · simp at ha
          exact Or.inr ⟨i, p, ha, hi⟩

theorem modFrame_refl {α : Type} (m : Mem α) : ModFrame m m :=
  ⟨rfl, fun db h => ⟨db, h, rfl⟩⟩

theorem modFrame_load {α : Type} (m0 m m' : Mem α) (i : Nat) (p : Fin 2) (v : α)
    (h : m.loadComplex i p = .ok (v, m')) (hF : ModFrame m0 m) : ModFrame m0 m' := by
  unfold Mem.loadComplex at h
  split at h
  · cases h
  · split at h
    · cases h
    · cases h
      exact hF

theorem modFrame_store {α : Type} (m0 m m' : Mem α) (j : Nat) (v : α)
    (h : m.storeDouble j v = .ok m') (hF : ModFrame m0 m) : ModFrame m0 m' := by
  unfold Mem.storeDouble at h
  split at h
  · cases h
  · rename_i dbm hdbm
    split at h
    · cases h
      refine ⟨hF.1, ?_⟩
      intro db hdb
      obtain ⟨db', hdb', hlen⟩ := hF.2 db hdb
      rw [hdbm] at hdb'
      cases hdb'
      exact ⟨_, rfl, by simp [hlen]⟩
    · cases h

theorem forLoop_preserves {S : Type} (cond : Nat → Bool) (next : Nat → Nat)
    (body : Nat → S → Except Fault S) (Q : Nat → Prop) (P : S → Prop)
    (hQ : ∀ i, Q i → cond i = true → Q (next i))
    (hbody : ∀ i s s', Q i → cond i = true → body i s = .ok s' → P s → P s') :
    ∀ fuel i s s', Q i → P s → forLoop cond next body fuel i s = .ok s' → P s' := by
  intro fuel
  induction fuel with
  | zero =>
    intro i s s' _ hP h
    unfold forLoop at h
    split at h
    · cases h
    · cases h
      exact hP
  | succ fuel ih =>
    intro i s s' hq hP h
    unfold forLoop at h
    split at h
    · rename_i hc
      split at h
      · rename_i s1 hs1
        exact ih (next i) s1 s' (hQ i hq hc) (hbody i s s1 hq hc hs1 hP) h
      · cases h
    · cases h
      exact hP

end BandPassModulator

/-! ## Lemmas on the loops of the modulator -/


namespace BandPassModulator

variable {α : Type} [Ring α]

theorem forLoop_spec {S : Type} (cond : Nat → Bool) (next : Nat → Nat)
    (body : Nat → S → Except Fault S) (I : Nat → S → Prop) (idx : Nat → Nat) (n : Nat)
    (hnext : ∀ k, k < n → next (idx k) = idx (k + 1))
    (hcond : ∀ k, k < n → cond (idx k) = true) (hexit : cond (idx n) = false)
    (hbody : ∀ k s, k < n → I k s → ∃ s', body (idx k) s = .ok s' ∧ I (k + 1) s') :
    ∀ fuel k s, k ≤ n → n - k ≤ fuel → I k s →
      ∃ s', forLoop cond next body fuel (idx k) s = .ok s' ∧ I n s' := by
  intro fuel
  induction fuel with
  | zero =>
    intro k s hk hf hI
    have hkn : k = n := by omega
    subst hkn
    exact ⟨s, by simp [forLoop, hexit], hI⟩
  | succ fuel ih =>
    intro k s hk hf hI
    by_cases hkn : k = n
    · subst hkn
      exact ⟨s, by simp [forLoop, hexit], hI⟩
    · have hlt : k < n := by omega
      obtain ⟨s', hs', hI'⟩ := hbody k s hlt hI
      obtain ⟨s'', hs'', hI''⟩ := ih (k + 1) s' (by omega) (by omega) hI'
      refine ⟨s'', ?_, hI''⟩
      simp [forLoop, hcond k hlt, hs', hnext k hlt, hs'']

theorem modulateEvenBody_eq (cb : List (α × α)) (db : List α) (tr : List Access) (i j : Nat)
    (c0 c1 : α × α) (h0 : cb[i]? = some c0) (h1 : cb[i + 1]? = some c1)
    (hj : j + 3 < db.length) :
    modulateEvenBody i (j, ⟨some cb, some db, tr⟩) =
      .ok (j + 4, ⟨some cb,
        some ((((db.set j c0.1).set (j + 1) c0.2).set (j + 2) (-c1.1)).set (j + 3) (-c1.2)),
        tr ++ [.readComplex i 0, .writeDouble j, .readComplex i 1, .writeDouble (j + 1),
               .readComplex (i + 1) 0, .writeDouble (j + 2), .readComplex (i + 1) 1,
               .writeDouble (j + 3)]⟩) := by
  have e0 : j < db.length := by omega
  have e1 : j + 1 < db.length := by omega
  have e2 : j + 2 < db.length := by omega
  simp [modulateEvenBody, Mem.loadComplex, Mem.storeDouble, bind, Except.bind, pure, Except.pure,
    h0, h1, e0, e1, e2, hj, part]

theorem modulateOddBody_eq (cb : List (α × α)) (db : List α) (tr : List Access) (i j : Nat)
    (s : Int) (c : α × α) (h0 : cb[i]? = some c) (hj : j + 1 < db.length) :
    modulateOddBody i (j, s, ⟨some cb, some db, tr⟩) =
      .ok (j + 2, s * (-1), ⟨some cb,
        some ((db.set j ((s : α) * c.1)).set (j + 1) ((s : α) * c.2)),
        tr ++ [.readComplex i 0, .writeDouble j, .readComplex i 1, .writeDouble (j + 1)]⟩) := by
  have e0 : j < db.length := by omega
  simp [modulateOddBody, Mem.loadComplex, Mem.storeDouble, bind, Except.bind, pure, Except.pure,
    h0, e0, hj, part]

theorem modulateDoubleEvenBody_eq (cb : Option (List (α × α))) (db : List α) (tr : List Access)
    (i : Nat) (v w : α) (h0 : db[i]? = some v) (h1 : db[i + 1]? = some w) :
    modulateDoubleEvenBody i ⟨cb, some db, tr⟩ =
      .ok ⟨cb, some ((db.set i (-v)).set (i + 1) (-w)),
        tr ++ [.readDouble i, .writeDouble i, .readDouble (i + 1), .writeDouble (i + 1)]⟩ := by
  have e0 : i < db.length := (List.getElem?_eq_some.1 h0).1
  have e1 : i + 1 < db.length := (List.getElem?_eq_some.1 h1).1
  have e2 : db[i + 1] = w := (List.getElem?_eq_some.1 h1).2
  simp [modulateDoubleEvenBody, Mem.loadDouble, Mem.storeDouble, bind, Except.bind, pure,
    Except.pure, h0, h1, e0, e1, e2, List.getElem?_set]

theorem modulateDoubleOddBody_eq (cb : Option (List (α × α))) (db : List α) (tr : List Access)
    (i j : Nat) (s : Int) (v w : α) (h0 : db[j]? = some v) (h1 : db[j + 1]? = some w) :
    modulateDoubleOddBody i (j, s, ⟨cb, some db, tr⟩) =
      .ok (j + 2, s * (-1), ⟨cb, some ((db.set j ((s : α) * v)).set (j + 1) ((s : α) * w)),
        tr ++ [.readDouble j, .writeDouble j, .readDouble (j + 1), .writeDouble (j + 1)]⟩) := by
  have e0 : j < db.length := (List.getElem?_eq_some.1 h0).1
  have e1 : j + 1 < db.length := (List.getElem?_eq_some.1 h1).1
  have e2 : db[j + 1] = w := (List.getElem?_eq_some.1 h1).2
  simp [modulateDoubleOddBody, Mem.loadDouble, Mem.storeDouble, bind, Except.bind, pure,
    Except.pure, h0, h1, e0, e1, e2, List.getElem?_set]

theorem demodulateEvenBody_eq (cb : List (α × α)) (db : List α) (tr : List Access) (i j : Nat)
    (c0 c1 : α × α) (v0 v1 v2 v3 : α) (hi : i + 1 < 4294967296)
    (hc0 : cb[i]? = some c0) (hc1 : cb[i + 1]? = some c1)
    (h0 : db[j]? = some v0) (h1 : db[u32 (j + 1)]? = some v1)
    (h2 : db[u32 (u32 (j + 1) + 1)]? = some v2)
    (h3 : db[u32 (u32 (u32 (j + 1) + 1) + 1)]? = some v3) :
    demodulateEvenBody i (j, ⟨some cb, some db, tr⟩) =
      .ok (u32 (u32 (u32 (u32 (j + 1) + 1) + 1) + 1),
        ⟨some ((cb.set i (v0, v1)).set (i + 1) (-v2, -v3)), some db,
         tr ++ [.readDouble j, .writeComplex i 0, .readDouble (u32 (j + 1)), .writeComplex i 1,
                .readDouble (u32 (u32 (j + 1) + 1)), .writeComplex (i + 1) 0,
                .readDouble (u32 (u32 (u32 (j + 1) + 1) + 1)), .writeComplex (i + 1) 1]⟩) := by
  have e0 : i < cb.length := (List.getElem?_eq_some.1 hc0).1
  have e1 : i + 1 < cb.length := (List.getElem?_eq_some.1 hc1).1
  have hu : u32 (i + 1) = i + 1 := Nat.mod_eq_of_lt hi
  simp [demodulateEvenBody, Mem.loadDouble, Mem.storeComplex, bind, Except.bind, pure,
    Except.pure, h0, h1, h2, h3, hc0, hc1, e0, e1, hu, List.getElem?_set, setPart]

theorem demodulateOddBody_eq (cb : List (α × α)) (db : List α) (tr : List Access) (i j : Nat)
    (s : Int) (c0 : α × α) (v0 v1 : α)
    (hc0 : cb[i]? = some c0)
    (h0 : db[j]? = some v0) (h1 : db[u32 (j + 1)]? = some v1) :
    demodulateOddBody i (j, s, ⟨some cb, some db, tr⟩) =
      .ok (u32 (u32 (j + 1) + 1), s * (-1),
        ⟨some (cb.set i ((s : α) * v0, (s : α) * v1)), some db,
         tr ++ [.readDouble j, .writeComplex i 0, .readDouble (u32 (j + 1)),
                .writeComplex i 1]⟩) := by
  have e0 : i < cb.length := (List.getElem?_eq_some.1 hc0).1
  simp [demodulateOddBody, Mem.loadDouble, Mem.storeComplex, bind, Except.bind, pure,
    Except.pure, h0, h1, hc0, e0, List.getElem?_set, setPart]

theorem signOf_succ (k : Nat) : signOf k * (-1) = signOf (k + 1) := by
  unfold signOf
  rcases Nat.mod_two_eq_zero_or_one k with h | h
  · have : (k + 1) % 2 = 1 := by omega
    simp [h, this]
  · have : (k + 1) % 2 = 0 := by omega
    simp [h, this]

theorem signOf_mul (k : Nat) (v : α) : ((signOf k : Int) : α) * v = signed k v := by
  unfold signOf signed
  rcases Nat.mod_two_eq_zero_or_one k with h | h <;> simp [h]

theorem modulateEven_step (cb : List (α × α)) (db : List α) (N k : Nat) (st : Nat × Mem α)
    (hcb : N ≤ cb.length) (hdb : 2 * N ≤ db.length) (hk : 2 * k + 1 < N)
    (hI : st.1 = 4 * k ∧ ModInv cb db (4 * k) st.2) :
    ∃ st', modulateEvenBody (2 * k) st = .ok st' ∧
      (st'.1 = 4 * (k + 1) ∧ ModInv cb db (4 * (k + 1)) st'.2) := by
  obtain ⟨j, m⟩ := st
  obtain ⟨mc, md, tr⟩ := m
  obtain ⟨hj, hc, db', hd, hlen, hlo, hhi⟩ := hI
  simp only at hj hc hd
  subst hj hc hd
  have h0 : cb[2 * k]? = some (cb[2 * k]) := List.getElem?_eq_getElem (by omega)
  have h1 : cb[2 * k + 1]? = some (cb[2 * k + 1]) := List.getElem?_eq_getElem (by omega)
  refine ⟨_, modulateEvenBody_eq cb db' tr (2 * k) (4 * k) _ _ h0 h1 (by omega), by simp; omega,
    rfl, _, rfl, by simp [hlen], ?_, ?_⟩
  · intro t c ht hc
    by_cases hlt : t < 4 * k
    · have := hlo t c hlt hc
      simp only [List.getElem?_set]
      rw [if_neg (by omega), if_neg (by omega), if_neg (by omega), if_neg (by omega)]
      exact this
    · have hcases : t = 4 * k ∨ t = 4 * k + 1 ∨ t = 4 * k + 2 ∨ t = 4 * k + 3 := by omega
      rcases hcases with h | h | h | h
      · subst h
        have e : 4 * k / 2 = 2 * k := by omega
        rw [e, h0] at hc
        have e2 : 2 * k % 2 = 0 := by omega
        have e3 : 4 * k % 2 = 0 := by omega
        cases hc
        simp [List.getElem?_set, signed, e, e2, e3]
        omega
      · subst h
        have e : (4 * k + 1) / 2 = 2 * k := by omega
        rw [e, h0] at hc
        have e2 : 2 * k % 2 = 0 := by omega
        have e3 : (4 * k + 1) % 2 = 1 := by omega
        cases hc
        simp [List.getElem?_set, signed, e, e2, e3]
        omega
      · subst h
        have e : (4 * k + 2) / 2 = 2 * k + 1 := by omega
        rw [e, h1] at hc
        have e2 : (2 * k + 1) % 2 = 1 := by omega
        have e3 : (4 * k + 2) % 2 = 0 := by omega
        cases hc
        simp [List.getElem?_set, signed, e, e2, e3]
        omega
      · subst h
        have e : (4 * k + 3) / 2 = 2 * k + 1 := by omega
        rw [e, h1] at hc
        have e2 : (2 * k + 1) % 2 = 1 := by omega
        have e3 : (4 * k + 3) % 2 = 1 := by omega
        cases hc
        simp [List.getElem?_set, signed, e, e2, e3]
        omega
  · intro t ht
    simp only [List.getElem?_set]
    rw [if_neg (by omega), if_neg (by omega), if_neg (by omega), if_neg (by omega)]
    exact hhi t (by omega)

theorem modulateOdd_step (cb : List (α × α)) (db : List α) (N k : Nat)
    (st : Nat × Int × Mem α)
    (hcb : N ≤ cb.length) (hdb : 2 * N ≤ db.length) (hk : k < N)
    (hI : st.1 = 2 * k ∧ st.2.1 = signOf k ∧ ModInv cb db (2 * k) st.2.2) :
    ∃ st', modulateOddBody k st = .ok st' ∧
      (st'.1 = 2 * (k + 1) ∧ st'.2.1 = signOf (k + 1) ∧ ModInv cb db (2 * (k + 1)) st'.2.2) := by
  obtain ⟨j, s, m⟩ := st
  obtain ⟨mc, md, tr⟩ := m
  obtain ⟨hj, hs, hc, db', hd, hlen, hlo, hhi⟩ := hI
  simp only at hj hs hc hd
  subst hj hs hc hd
  have h0 : cb[k]? = some (cb[k]) := List.getElem?_eq_getElem (by omega)
  refine ⟨_, modulateOddBody_eq cb db' tr k (2 * k) (signOf k) _ h0 (by omega), by simp; omega,
    signOf_succ k, rfl, _, rfl, by simp [hlen], ?_, ?_⟩
  · intro t c ht hc
    by_cases hlt : t < 2 * k
    · have := hlo t c hlt hc
      simp only [List.getElem?_set]
      rw [if_neg (by omega), if_neg (by omega)]
      exact this
    · have hcases : t = 2 * k ∨ t = 2 * k + 1 := by omega
      rcases hcases with h | h
      · subst h
        have e : 2 * k / 2 = k := by omega
        rw [e, h0] at hc
        have e3 : 2 * k % 2 = 0 := by omega
        cases hc
        simp [List.getElem?_set, signOf_mul, e, e3]
        omega
      · subst h
        have e : (2 * k + 1) / 2 = k := by omega
        rw [e, h0] at hc
        have e3 : (2 * k + 1) % 2 = 1 := by omega
        cases hc
        simp [List.getElem?_set, signOf_mul, e, e3]
        omega
  · intro t ht
    simp only [List.getElem?_set]
    rw [if_neg (by omega), if_neg (by omega)]
    exact hhi t (by omega)

/-- Result of `Modulate()` on a configured instance, for both parities: the call returns 0, the
first `2 * N` reals of `doubleBuffer` hold the samples with sign `(-1)^i`, everything else is
as before. -/
theorem modulate_result (self : BandPassModulator α) (cb : List (α × α)) (db : List α)
    (hc : self.complexBuffer = some cb) (hd : self.doubleBuffer = some db)
    (hcb : self.nPoints ≤ cb.length) (hdb : 2 * self.nPoints ≤ db.length) :
    ∃ db' tr, self.Modulate = .ok ⟨0, { self with doubleBuffer := some db' }, tr⟩ ∧
      db'.length = db.length ∧
      (∀ t c, t < 2 * self.nPoints → cb[t / 2]? = some c →
        db'[t]? = some (signed (t / 2) (if t % 2 = 0 then c.1 else c.2))) ∧
      (∀ t, 2 * self.nPoints ≤ t → db'[t]? = db[t]?) := by
  obtain ⟨N, scb, sdb, cfg⟩ := self
  simp only at hc hd hcb hdb
  subst hc hd
  have hinit : ModInv cb db 0 (⟨some cb, some db, []⟩ : Mem α) :=
    ⟨rfl, db, rfl, rfl, fun t c ht => absurd ht (Nat.not_lt_zero t), fun t _ => rfl⟩
  by_cases hpar : N % 2 = 0
  · obtain ⟨st', hrun, hj, hI⟩ := forLoop_spec
      (fun i => decide (i < N)) (fun i => i + 2) modulateEvenBody
      (fun k (st : Nat × Mem α) => st.1 = 4 * k ∧ ModInv cb db (4 * k) st.2)
      (fun k => 2 * k) (N / 2)
      (fun k _ => by ring)
      (fun k hk => by simp; omega)
      (by simp; omega)
      (fun k st hk hI => modulateEven_step cb db N k st hcb hdb (by omega) hI)
      N 0 (0, ⟨some cb, some db, []⟩) (Nat.zero_le _) (by omega) ⟨rfl, hinit⟩
    obtain ⟨j', mc, md, tr⟩ := st'
    obtain ⟨hc', db', hd', hlen, hlo, hhi⟩ := hI
    simp only at hc' hd'
    subst hc' hd'
    refine ⟨db', tr, ?_, hlen, ?_, ?_⟩
    · simp only [Modulate, mem, hpar, if_true]
      simp only [Nat.mul_zero] at hrun
      rw [hrun]
      rfl
    · intro t c ht hc
      simp only at ht
      exact hlo t c (by omega) hc
    · intro t ht
      simp only at ht
      exact hhi t (by omega)
  · obtain ⟨st', hrun, hj, hs, hI⟩ := forLoop_spec
      (fun i => decide (i < N)) (fun i => i + 1) modulateOddBody
      (fun k (st : Nat × Int × Mem α) =>
        st.1 = 2 * k ∧ st.2.1 = signOf k ∧ ModInv cb db (2 * k) st.2.2)
      (fun k => k) N
      (fun k _ => rfl)
      (fun k hk => by simp; omega)
      (by simp)
      (fun k st hk hI => modulateOdd_step cb db N k st hcb hdb hk hI)
      N 0 (0, 1, ⟨some cb, some db, []⟩) (Nat.zero_le _) (by omega) ⟨rfl, rfl, hinit⟩
    obtain ⟨j', s', mc, md, tr⟩ := st'
    obtain ⟨hc', db', hd', hlen, hlo, hhi⟩ := hI
    simp only at hc' hd'
    subst hc' hd'
    refine ⟨db', tr, ?_, hlen, hlo, hhi⟩
    simp only [Modulate, mem, hpar, if_false]
    rw [hrun]
    rfl

theorem u32_of_lt {x : Nat} (h : x < 4294967296) : u32 x = x := Nat.mod_eq_of_lt h

theorem demodulateEven_step (cb : List (α × α)) (db : List α) (off k : Nat)
    (st : Nat × Mem α) (hi : 2 * k + 1 < 4294967296)
    (hcb : 2 * k + 1 < cb.length) (hdb : off + 4 * k + 4 ≤ db.length)
    (hoff : off + 4 * k + 4 ≤ 4294967296)
    (hI : st.1 = u32 (off + 4 * k) ∧ DemodInv cb db off (2 * k) st.2) :
    ∃ st', demodulateEvenBody (2 * k) st = .ok st' ∧
      (st'.1 = u32 (off + 4 * (k + 1)) ∧ DemodInv cb db off (2 * (k + 1)) st'.2) := by
  obtain ⟨j, m⟩ := st
  obtain ⟨mc, md, tr⟩ := m
  obtain ⟨hj, hd, cb', hc, hlen, hlo, hhi⟩ := hI
  simp only at hj hc hd
  have hj0 : j = off + 4 * k := by rw [hj]; exact u32_of_lt (by omega)
  subst hj0 hc hd
  have u1 : u32 (off + 4 * k + 1) = off + 4 * k + 1 := u32_of_lt (by omega)
  have u2 : u32 (off + 4 * k + 1 + 1) = off + 4 * k + 2 := u32_of_lt (by omega)
  have u3 : u32 (off + 4 * k + 2 + 1) = off + 4 * k + 3 := u32_of_lt (by omega)
  have hc0 : cb'[2 * k]? = some (cb'[2 * k]) := List.getElem?_eq_getElem (by omega)
  have hc1 : cb'[2 * k + 1]? = some (cb'[2 * k + 1]) := List.getElem?_eq_getElem (by omega)
  have h0 : db[off + 4 * k]? = some (db[off + 4 * k]) := List.getElem?_eq_getElem (by omega)
  have h1 : db[off + 4 * k + 1]? = some (db[off + 4 * k + 1]) :=
    List.getElem?_eq_getElem (by omega)
  have h2 : db[off + 4 * k + 2]? = some (db[off + 4 * k + 2]) :=
    List.getElem?_eq_getElem (by omega)
  have h3 : db[off + 4 * k + 3]? = some (db[off + 4 * k + 3]) :=
    List.getElem?_eq_getElem (by omega)
  have hb := demodulateEvenBody_eq cb' db tr (2 * k) (off + 4 * k) _ _ _ _ _ _ (by omega) hc0 hc1
    h0 (by rw [u1]; exact h1) (by rw [u1, u2]; exact h2) (by rw [u1, u2, u3]; exact h3)
  simp only [u1, u2, u3] at hb
  refine ⟨_, hb, by simp; rfl, rfl, _, rfl, by simp [hlen], ?_, ?_⟩
  · intro i v0 v1 hi hv0 hv1
    by_cases hlt : i < 2 * k
    · have := hlo i v0 v1 hlt hv0 hv1
      simp only [List.getElem?_set]
      rw [if_neg (by omega), if_neg (by omega)]
      exact this
    · have hcases : i = 2 * k ∨ i = 2 * k + 1 := by omega
      rcases hcases with h | h
      · subst h
        have e0 : off + 2 * (2 * k) = off + 4 * k := by ring
        rw [e0] at hv0 hv1
        rw [h0] at hv0
        rw [h1] at hv1
        cases hv0
        cases hv1
        have e2 : 2 * k % 2 = 0 := by omega
        simp [List.getElem?_set, signed, e2]
        omega
      · subst h
        have e0 : off + 2 * (2 * k + 1) = off + 4 * k + 2 := by ring
        rw [e0] at hv0 hv1
        rw [h2] at hv0
        rw [h3] at hv1
        cases hv0
        cases hv1
        have e2 : (2 * k + 1) % 2 = 1 := by omega
        simp [List.getElem?_set, signed, e2]
        omega
  · intro i hi
    simp only [List.getElem?_set]
    rw [if_neg (by omega), if_neg (by omega)]
    exact hhi i (by omega)

theorem demodulateOdd_step (cb : List (α × α)) (db : List α) (off k : Nat)
    (st : Nat × Int × Mem α)
    (hcb : k < cb.length) (hdb : off + 2 * k + 2 ≤ db.length)
    (hoff : off + 2 * k + 2 ≤ 4294967296)
    (hI : st.1 = u32 (off + 2 * k) ∧ st.2.1 = signOf k ∧ DemodInv cb db off k st.2.2) :
    ∃ st', demodulateOddBody k st = .ok st' ∧
      (st'.1 = u32 (off + 2 * (k + 1)) ∧ st'.2.1 = signOf (k + 1) ∧
        DemodInv cb db off (k + 1) st'.2.2) := by
  obtain ⟨j, s, m⟩ := st
  obtain ⟨mc, md, tr⟩ := m
  obtain ⟨hj, hs, hd, cb', hc, hlen, hlo, hhi⟩ := hI
  simp only at hj hs hc hd
  have hj0 : j = off + 2 * k := by rw [hj]; exact u32_of_lt (by omega)
  subst hj0 hs hc hd
  have u1 : u32 (off + 2 * k + 1) = off + 2 * k + 1 := u32_of_lt (by omega)
  have hc0 : cb'[k]? = some (cb'[k]) := List.getElem?_eq_getElem (by omega)
  have h0 : db[off + 2 * k]? = some (db[off + 2 * k]) := List.getElem?_eq_getElem (by omega)
  have h1 : db[off + 2 * k + 1]? = some (db[off + 2 * k + 1]) :=
    List.getElem?_eq_getElem (by omega)
  have hb := demodulateOddBody_eq cb' db tr k (off + 2 * k) (signOf k) _ _ _ hc0
    h0 (by rw [u1]; exact h1)
  simp only [u1] at hb
  refine ⟨_, hb, by simp; rfl, signOf_succ k, rfl, _, rfl, by simp [hlen], ?_, ?_⟩
  · intro i v0 v1 hi hv0 hv1
    by_cases hlt : i < k
    · have := hlo i v0 v1 hlt hv0 hv1
      simp only [List.getElem?_set]
      rw [if_neg (by omega)]
      exact this
    · have h : i = k := by omega
      subst h
      rw [h0] at hv0
      rw [h1] at hv1
      cases hv0
      cases hv1
      simp [List.getElem?_set, signOf_mul]
      omega
  · intro i hi
    simp only [List.getElem?_set]
    rw [if_neg (by omega)]
    exact hhi i (by omega)

/-- Result of `Demodulate(off)` on a configured instance, for both parities, when the window
`[off, off + 2 * N)` lies inside the real buffer and below `2^32`: the call returns 0, sample
`i < N` of `complexBuffer` is the pair of reals at `off + 2 * i`, `off + 2 * i + 1` with sign
`(-1)^i`, everything else is as before. -/
theorem demodulate_result (self : BandPassModulator α) (cb : List (α × α)) (db : List α)
    (off : Nat) (hc : self.complexBuffer = some cb) (hd : self.doubleBuffer = some db)
    (hN : self.nPoints < 65536) (hcb : self.nPoints ≤ cb.length)
    (hdb : off + 2 * self.nPoints ≤ db.length) (hoff : off + 2 * self.nPoints ≤ 4294967296) :
    ∃ cb' tr, self.Demodulate off = .ok ⟨0, { self with complexBuffer := some cb' }, tr⟩ ∧
      cb'.length = cb.length ∧
      (∀ i v0 v1, i < self.nPoints → db[off + 2 * i]? = some v0 →
        db[off + 2 * i + 1]? = some v1 → cb'[i]? = some (signed i v0, signed i v1)) ∧
      (∀ i, self.nPoints ≤ i → cb'[i]? = cb[i]?) := by
  obtain ⟨N, scb, sdb, cfg⟩ := self
  simp only at hc hd hN hcb hdb hoff
  subst hc hd
  have hinit : DemodInv cb db off 0 (⟨some cb, some db, []⟩ : Mem α) :=
    ⟨rfl, cb, rfl, rfl, fun i _ _ hi => absurd hi (Nat.not_lt_zero i), fun i _ => rfl⟩
  by_cases hz : N = 0
  · subst hz
    exact ⟨cb, [], by simp [Demodulate, forLoop, finish, mem], rfl,
      fun i _ _ hi => absurd hi (Nat.not_lt_zero i), fun i _ => rfl⟩
  have hoff0 : off = u32 (off + 0) := (u32_of_lt (by omega)).symm
  by_cases hpar : N % 2 = 0
  · obtain ⟨st', hrun, hj, hI⟩ := forLoop_spec
      (fun i => decide (i < N)) (fun i => u32 (i + 2)) demodulateEvenBody
      (fun k (st : Nat × Mem α) => st.1 = u32 (off + 4 * k) ∧ DemodInv cb db off (2 * k) st.2)
      (fun k => 2 * k) (N / 2)
      (fun k hk => by
        show u32 (2 * k + 2) = 2 * (k + 1)
        rw [u32_of_lt (by omega)]; ring)
      (fun k hk => by simp; omega)
      (by simp; omega)
      (fun k st hk hI => demodulateEven_step cb db off k st (by omega) (by omega) (by omega)
        (by omega) hI)
      N 0 (off, ⟨some cb, some db, []⟩) (Nat.zero_le _) (by omega) ⟨hoff0, hinit⟩
    obtain ⟨j', mc, md, tr⟩ := st'
    obtain ⟨hd', cb', hc', hlen, hlo, hhi⟩ := hI
    simp only at hc' hd'
    subst hc' hd'
    refine ⟨cb', tr, ?_, hlen, ?_, ?_⟩
    · simp only [Demodulate, mem, hpar, if_true]
      simp only [Nat.mul_zero] at hrun
      rw [hrun]
      rfl
    · intro i v0 v1 hi h0 h1
      simp only at hi
      exact hlo i v0 v1 (by omega) h0 h1
    · intro i hi
      simp only at hi
      exact hhi i (by omega)
  · obtain ⟨st', hrun, hj, hs, hI⟩ := forLoop_spec
      (fun i => decide (i < N)) (fun i => u32 (i + 1)) demodulateOddBody
      (fun k (st : Nat × Int × Mem α) =>
        st.1 = u32 (off + 2 * k) ∧ st.2.1 = signOf k ∧ DemodInv cb db off k st.2.2)
      (fun k => k) N
      (fun k hk => by
        show u32 (k + 1) = k + 1
        exact u32_of_lt (by omega))
      (fun k hk => by simp; omega)
      (by simp)
      (fun k st hk hI => demodulateOdd_step cb db off k st (by omega) (by omega) (by omega) hI)
      N 0 (off, 1, ⟨some cb, some db, []⟩) (Nat.zero_le _) (by omega) ⟨hoff0, rfl, hinit⟩
    obtain ⟨j', s', mc, md, tr⟩ := st'
    obtain ⟨hd', cb', hc', hlen, hlo, hhi⟩ := hI
    simp only at hc' hd'
    subst hc' hd'
    refine ⟨cb', tr, ?_, hlen, hlo, hhi⟩
    simp only [Demodulate, mem, hpar, if_false]
    rw [hrun]
    rfl

theorem modulateDoubleEven_step (cbo : Option (List (α × α))) (db : List α) (N k : Nat)
    (m : Mem α) (hdb : 2 * N ≤ db.length) (hk : 2 * k + 1 < N)
    (hI : InPlaceInv cbo db (4 * k) m) :
    ∃ m', modulateDoubleEvenBody (2 + 4 * k) m = .ok m' ∧ InPlaceInv cbo db (4 * (k + 1)) m' := by
  obtain ⟨mc, md, tr⟩ := m
  obtain ⟨hc, db', hd, hlen, hlo, hhi⟩ := hI
  simp only at hc hd
  subst hc hd
  have h2 : db[2 + 4 * k]? = some (db[2 + 4 * k]) := List.getElem?_eq_getElem (by omega)
  have h3 : db[2 + 4 * k + 1]? = some (db[2 + 4 * k + 1]) := List.getElem?_eq_getElem (by omega)
  have g2 : db'[2 + 4 * k]? = some (db[2 + 4 * k]) := by rw [hhi _ (by omega)]; exact h2
  have g3 : db'[2 + 4 * k + 1]? = some (db[2 + 4 * k + 1]) := by rw [hhi _ (by omega)]; exact h3
  refine ⟨_, modulateDoubleEvenBody_eq mc db' tr (2 + 4 * k) _ _ g2 g3, rfl, _, rfl,
    by simp [hlen], ?_, ?_⟩
  · intro t v ht hv
    by_cases hlt : t < 4 * k
    · have := hlo t v hlt hv
      simp only [List.getElem?_set]
      rw [if_neg (by omega), if_neg (by omega)]
      exact this
    · have hcases : t = 4 * k ∨ t = 4 * k + 1 ∨ t = 2 + 4 * k ∨ t = 2 + 4 * k + 1 := by omega
      rcases hcases with h | h | h | h
      · subst h
        have e2 : 4 * k / 2 % 2 = 0 := by omega
        simp only [List.getElem?_set]
        rw [if_neg (by omega), if_neg (by omega), hhi _ (by omega), hv]
        simp [signed, e2]
      · subst h
        have e2 : (4 * k + 1) / 2 % 2 = 0 := by omega
        simp only [List.getElem?_set]
        rw [if_neg (by omega), if_neg (by omega), hhi _ (by omega), hv]
        simp [signed, e2]
      · subst h
        rw [h2] at hv
        cases hv
        have e2 : ¬ ((2 + 4 * k) / 2 % 2 = 0) := by omega
        have l1 : 2 + 4 * k < db'.length := by omega
        simp only [List.getElem?_set, signed, if_neg e2, List.length_set]
        simp [l1]
      · subst h
        rw [h3] at hv
        cases hv
        have e2 : ¬ ((2 + 4 * k + 1) / 2 % 2 = 0) := by omega
        have l1 : 2 + 4 * k + 1 < db'.length := by omega
        simp only [List.getElem?_set, signed, if_neg e2, List.length_set]
        simp [l1]
  · intro t ht
    simp only [List.getElem?_set]
    rw [if_neg (by omega), if_neg (by omega)]
    exact hhi t (by omega)

theorem modulateDoubleOdd_step (cbo : Option (List (α × α))) (db : List α) (N k : Nat)
    (st : Nat × Int × Mem α) (hdb : 2 * N ≤ db.length) (hk : k < N)
    (hI : st.1 = 2 * k ∧ st.2.1 = signOf k ∧ InPlaceInv cbo db (2 * k) st.2.2) :
    ∃ st', modulateDoubleOddBody k st = .ok st' ∧
      (st'.1 = 2 * (k + 1) ∧ st'.2.1 = signOf (k + 1) ∧
        InPlaceInv cbo db (2 * (k + 1)) st'.2.2) := by
  obtain ⟨j, s, m⟩ := st
  obtain ⟨mc, md, tr⟩ := m
  obtain ⟨hj, hs, hc, db', hd, hlen, hlo, hhi⟩ := hI
  simp only at hj hs hc hd
  subst hj hs hc hd
  have h2 : db[2 * k]? = some (db[2 * k]) := List.getElem?_eq_getElem (by omega)
  have h3 : db[2 * k + 1]? = some (db[2 * k + 1]) := List.getElem?_eq_getElem (by omega)
  have g2 : db'[2 * k]? = some (db[2 * k]) := by rw [hhi _ (by omega)]; exact h2
  have g3 : db'[2 * k + 1]? = some (db[2 * k + 1]) := by rw [hhi _ (by omega)]; exact h3
  refine ⟨_, modulateDoubleOddBody_eq mc db' tr k (2 * k) (signOf k) _ _ g2 g3, by simp; omega,
    signOf_succ k, rfl, _, rfl, by simp [hlen], ?_, ?_⟩
  · intro t v ht hv
    by_cases hlt : t < 2 * k
    · have := hlo t v hlt hv
      simp only [List.getElem?_set]
      rw [if_neg (by omega), if_neg (by omega)]
      exact this
    · have hcases : t = 2 * k ∨ t = 2 * k + 1 := by omega
      rcases hcases with h | h
      · subst h
        have e : 2 * k / 2 = k := by omega
        rw [h2] at hv
        cases hv
        simp [List.getElem?_set, signOf_mul, e]
        omega
      · subst h
        have e : (2 * k + 1) / 2 = k := by omega
        rw [h3] at hv
        cases hv
        simp [List.getElem?_set, signOf_mul, e]
        omega
  · intro t ht
    simp only [List.getElem?_set]
    rw [if_neg (by omega), if_neg (by omega)]
    exact hhi t (by omega)

/-- Result of `Modulate(double*)` for both parities: the call returns 0, real `t < 2 * N` of
`pDouble` is multiplied by the sign `(-1)^(t / 2)`, everything else is as before. -/
theorem modulateDouble_result (self : BandPassModulator α) (db : List α)
    (hdb : 2 * self.nPoints ≤ db.length) :
    ∃ db' tr, self.ModulateDouble (some db) = .ok (0, some db', tr) ∧
      db'.length = db.length ∧
      (∀ t v, t < 2 * self.nPoints → db[t]? = some v → db'[t]? = some (signed (t / 2) v)) ∧
      (∀ t, 2 * self.nPoints ≤ t → db'[t]? = db[t]?) := by
  obtain ⟨N, scb, sdb, cfg⟩ := self
  simp only at hdb
  have hinit : InPlaceInv scb db 0 (⟨scb, some db, []⟩ : Mem α) :=
    ⟨rfl, db, rfl, rfl, fun t _ ht => absurd ht (Nat.not_lt_zero t), fun t _ => rfl⟩
  by_cases hpar : N % 2 = 0
  · obtain ⟨m', hrun, hI⟩ := forLoop_spec
      (fun i => decide (i < N * 2)) (fun i => i + 4) modulateDoubleEvenBody
      (fun k (m : Mem α) => InPlaceInv scb db (4 * k) m)
      (fun k => 2 + 4 * k) (N / 2)
      (fun k _ => by ring)
      (fun k hk => by simp; omega)
      (by simp; omega)
      (fun k m hk hI => modulateDoubleEven_step scb db N k m hdb (by omega) hI)
      N 0 ⟨scb, some db, []⟩ (Nat.zero_le _) (by omega) hinit
    obtain ⟨mc, md, tr⟩ := m'
    obtain ⟨hc', db', hd', hlen, hlo, hhi⟩ := hI
    simp only at hc' hd'
    subst hc' hd'
    refine ⟨db', tr, ?_, hlen, ?_, ?_⟩
    · simp only [ModulateDouble, hpar, if_true]
      simp only [Nat.mul_zero, Nat.add_zero] at hrun
      rw [hrun]
    · intro t v ht hv
      simp only at ht
      exact hlo t v (by omega) hv
    · intro t ht
      simp only at ht
      exact hhi t (by omega)
  · obtain ⟨st', hrun, hj, hs, hI⟩ := forLoop_spec
      (fun i => decide (i < N)) (fun i => i + 1) modulateDoubleOddBody
      (fun k (st : Nat × Int × Mem α) =>
        st.1 = 2 * k ∧ st.2.1 = signOf k ∧ InPlaceInv scb db (2 * k) st.2.2)
      (fun k => k) N
      (fun k _ => rfl)
      (fun k hk => by simp; omega)
      (by simp)
      (fun k st hk hI => modulateDoubleOdd_step scb db N k st hdb hk hI)
      N 0 (0, 1, ⟨scb, some db, []⟩) (Nat.zero_le _) (by omega) ⟨rfl, rfl, hinit⟩
    obtain ⟨j', s', mc, md, tr⟩ := st'
    obtain ⟨hc', db', hd', hlen, hlo, hhi⟩ := hI
    simp only at hc' hd'
    subst hc' hd'
    refine ⟨db', tr, ?_, hlen, hlo, hhi⟩
    simp only [ModulateDouble, hpar, if_false]
    rw [hrun]

theorem signed_signed (i : Nat) (v : α) : signed i (signed i v) = v := by
  unfold signed
  split <;> simp

theorem altSign_eq (i : Nat) : altSign i = signOf i := by
  induction i with
  | zero => rfl
  | succ i ih =>
    rw [altSign, ih, ← signOf_succ]
    ring

theorem altSign_mul (i : Nat) (v : α) : ((altSign i : Int) : α) * v = signed i v := by
  rw [altSign_eq, signOf_mul]

theorem forLoop_fault {S : Type} (cond : Nat → Bool) (next : Nat → Nat)
    (body : Nat → S → Except Fault S) (I : Nat → S → Prop) (idx : Nat → Nat) (n : Nat)
    (e : Fault)
    (hnext : ∀ k, k < n → next (idx k) = idx (k + 1))
    (hcond : ∀ k, k ≤ n → cond (idx k) = true)
    (hbody : ∀ k s, k < n → I k s → ∃ s', body (idx k) s = .ok s' ∧ I (k + 1) s')
    (hfault : ∀ s, I n s → body (idx n) s = .error e) :
    ∀ fuel k s, k ≤ n → n - k < fuel → I k s →
      forLoop cond next body fuel (idx k) s = .error e := by
  intro fuel
  induction fuel with
  | zero =>
    intro k s _ hf _
    exact absurd hf (Nat.not_lt_zero _)
  | succ fuel ih =>
    intro k s hk hf hI
    by_cases hkn : k = n
    · subst hkn
      simp [forLoop, hcond k (Nat.le_refl k), hfault s hI]
    · have hlt : k < n := by omega
      obtain ⟨s', hs', hI'⟩ := hbody k s hlt hI
      have := ih (k + 1) s' (by omega) (by omega) hI'
      simp [forLoop, hcond k hk, hs', hnext k hlt, this]

theorem demodulateEvenBody_fault (cb : List (α × α)) (db : List α) (tr : List Access)
    (i j r : Nat) (hr : r < 4) (hi : i + 1 < cb.length) (hi32 : i + 1 < 4294967296)
    (hj : j + r < 4294967296)
    (hin : r = 0 ∨ j + r ≤ db.length) (hout : db.length ≤ j + r) :
    demodulateEvenBody i (j, ⟨some cb, some db, tr⟩) =
      .error (.outOfBounds (.readDouble (j + r))) := by
  have hu : u32 (i + 1) = i + 1 := u32_of_lt hi32
  have hnone : db[j + r]? = none := List.getElem?_eq_none hout
  have hc0 : cb[i]? = some (cb[i]) := List.getElem?_eq_getElem (by omega)
  have hc1 : cb[i + 1]? = some (cb[i + 1]) := List.getElem?_eq_getElem (by omega)
  have e0 : i < cb.length := by omega
  have hcases : r = 0 ∨ r = 1 ∨ r = 2 ∨ r = 3 := by omega
  rcases hcases with h | h | h | h
  · subst h
    simp only [Nat.add_zero] at hnone
    simp [demodulateEvenBody, Mem.loadDouble, Mem.storeComplex, bind, Except.bind, hnone]
  · subst h
    have hin' : j + 1 ≤ db.length := by omega
    have u1 : u32 (j + 1) = j + 1 := u32_of_lt (by omega)
    have h0 : db[j]? = some (db[j]) := List.getElem?_eq_getElem (by omega)
    simp [demodulateEvenBody, Mem.loadDouble, Mem.storeComplex, bind, Except.bind, hnone, h0,
      hc0, u1, e0]
  · subst h
    have hin' : j + 1 ≤ db.length := by omega
    have u1 : u32 (j + 1) = j + 1 := u32_of_lt (by omega)
    have u2 : u32 (j + 1 + 1) = j + 2 := u32_of_lt (by omega)
    have h0 : db[j]? = some (db[j]) := List.getElem?_eq_getElem (by omega)
    have h1 : db[j + 1]? = some (db[j + 1]) := List.getElem?_eq_getElem (by omega)
    simp [demodulateEvenBody, Mem.loadDouble, Mem.storeComplex, bind, Except.bind, hnone, h0,
      h1, hc0, u1, u2, e0]
  · subst h
    have hin' : j + 1 ≤ db.length := by omega
    have u1 : u32 (j + 1) = j + 1 := u32_of_lt (by omega)
    have u2 : u32 (j + 1 + 1) = j + 2 := u32_of_lt (by omega)
    have u3 : u32 (j + 2 + 1) = j + 3 := u32_of_lt (by omega)
    have h0 : db[j]? = some (db[j]) := List.getElem?_eq_getElem (by omega)
    have h1 : db[j + 1]? = some (db[j + 1]) := List.getElem?_eq_getElem (by omega)
    have h2 : db[j + 2]? = some (db[j + 2]) := List.getElem?_eq_getElem (by omega)
    simp [demodulateEvenBody, Mem.loadDouble, Mem.storeComplex, bind, Except.bind, hnone, h0,
      h1, h2, hc0, hc1, hu, u1, u2, u3, e0, hi, List.getElem?_set]

theorem demodulateOddBody_fault (cb : List (α × α)) (db : List α) (tr : List Access)
    (i j r : Nat) (s : Int) (hr : r < 2) (hi : i < cb.length)
    (hj : j + r < 4294967296)
    (hin : r = 0 ∨ j + r ≤ db.length) (hout : db.length ≤ j + r) :
    demodulateOddBody i (j, s, ⟨some cb, some db, tr⟩) =
      .error (.outOfBounds (.readDouble (j + r))) := by
  have hnone : db[j + r]? = none := List.getElem?_eq_none hout
  have hc0 : cb[i]? = some (cb[i]) := List.getElem?_eq_getElem (by omega)
  have hcases : r = 0 ∨ r = 1 := by omega
  rcases hcases with h | h
  · subst h
    simp only [Nat.add_zero] at hnone
    simp [demodulateOddBody, Mem.loadDouble, Mem.storeComplex, bind, Except.bind, hnone]
  · subst h
    have hin' : j + 1 ≤ db.length := by omega
    have u1 : u32 (j + 1) = j + 1 := u32_of_lt (by omega)
    have h0 : db[j]? = some (db[j]) := List.getElem?_eq_getElem (by omega)
    simp [demodulateOddBody, Mem.loadDouble, Mem.storeComplex, bind, Except.bind, hnone, h0,
      hc0, u1, hi]

/-- The function `Demodulate` has no bounds check: when the window `[off, off + 2 * N)` ends beyond the real
buffer, the execution reads `doubleBuffer` out of bounds, first at index `max off L`. -/
theorem demodulate_fault (self : BandPassModulator α) (cb : List (α × α)) (db : List α)
    (off : Nat) (hc : self.complexBuffer = some cb) (hd : self.doubleBuffer = some db)
    (hN : self.nPoints < 65536) (hpos : 0 < self.nPoints) (hcb : self.nPoints ≤ cb.length)
    (hoff : off + 2 * self.nPoints ≤ 4294967296)
    (hout : db.length < off + 2 * self.nPoints) :
    self.Demodulate off = .error (.outOfBounds (.readDouble (max off db.length))) := by
  obtain ⟨N, scb, sdb, cfg⟩ := self
  simp only at hc hd hN hpos hcb hoff hout
  subst hc hd
  have hinit : DemodInv cb db off 0 (⟨some cb, some db, []⟩ : Mem α) :=
    ⟨rfl, cb, rfl, rfl, fun i _ _ hi => absurd hi (Nat.not_lt_zero i), fun i _ => rfl⟩
  have hoff0 : off = u32 (off + 0) := (u32_of_lt (by omega)).symm
  obtain ⟨top, htop⟩ : ∃ top, top = max off db.length := ⟨_, rfl⟩
  rw [← htop]
  have ht1 : off ≤ top := by omega
  have ht2 : db.length ≤ top := by omega
  have ht3 : top < off + 2 * N := by omega
  have ht4 : top = off ∨ top = db.length := by omega
  by_cases hpar : N % 2 = 0
  · obtain ⟨k0, r, hr, hkr⟩ : ∃ k0 r, r < 4 ∧ off + 4 * k0 + r = top :=
      ⟨(top - off) / 4, (top - off) % 4, Nat.mod_lt _ (by decide), by omega⟩
    have hrun := forLoop_fault
      (fun i => decide (i < N)) (fun i => u32 (i + 2)) demodulateEvenBody
      (fun k (st : Nat × Mem α) => st.1 = u32 (off + 4 * k) ∧ DemodInv cb db off (2 * k) st.2)
      (fun k => 2 * k) k0
      (.outOfBounds (.readDouble (off + 4 * k0 + r)))
      (fun k hk => by
        show u32 (2 * k + 2) = 2 * (k + 1)
        rw [u32_of_lt (by omega)]; ring)
      (fun k hk => by simp; omega)
      (fun k st hk hI => demodulateEven_step cb db off k st (by omega) (by omega) (by omega)
        (by omega) hI)
      (fun st hI => by
        obtain ⟨j, mc, md, tr⟩ := st
        obtain ⟨hj, hd', cb', hc', hlen, -, -⟩ := hI
        simp only at hj hc' hd'
        have hj0 : j = off + 4 * k0 := by
          rw [hj]; exact u32_of_lt (by omega)
        clear hj
        subst hc' hd' hj0
        show demodulateEvenBody (2 * k0) _ = _
        exact demodulateEvenBody_fault cb' db tr _ _ _ hr (by omega)
          (by omega) (by omega) (by omega) (by omega))
      N 0 (off, ⟨some cb, some db, []⟩) (Nat.zero_le _) (by omega) ⟨hoff0, hinit⟩
    simp only [Demodulate, mem, hpar, if_true]
    simp only [Nat.mul_zero] at hrun
    rw [hrun, hkr]
  · obtain ⟨k0, r, hr, hkr⟩ : ∃ k0 r, r < 2 ∧ off + 2 * k0 + r = top :=
      ⟨(top - off) / 2, (top - off) % 2, Nat.mod_lt _ (by decide), by omega⟩
    have hrun := forLoop_fault
      (fun i => decide (i < N)) (fun i => u32 (i + 1)) demodulateOddBody
      (fun k (st : Nat × Int × Mem α) =>
        st.1 = u32 (off + 2 * k) ∧ st.2.1 = signOf k ∧ DemodInv cb db off k st.2.2)
      (fun k => k) k0
      (.outOfBounds (.readDouble (off + 2 * k0 + r)))
      (fun k hk => by
        show u32 (k + 1) = k + 1
        exact u32_of_lt (by omega))
      (fun k hk => by simp; omega)
      (fun k st hk hI => demodulateOdd_step cb db off k st (by omega) (by omega) (by omega) hI)
      (fun st hI => by
        obtain ⟨j, s, mc, md, tr⟩ := st
        obtain ⟨hj, -, hd', cb', hc', hlen, -, -⟩ := hI
        simp only at hj hc' hd'
        have hj0 : j = off + 2 * k0 := by
          rw [hj]; exact u32_of_lt (by omega)
        clear hj
        subst hc' hd' hj0
        show demodulateOddBody k0 _ = _
        exact demodulateOddBody_fault cb' db tr _ _ _ s hr (by omega)
          (by omega) (by omega) (by omega))
      N 0 (off, 1, ⟨some cb, some db, []⟩) (Nat.zero_le _) (by omega) ⟨hoff0, rfl, hinit⟩
    simp only [Demodulate, mem, hpar, if_false]
    rw [hrun, hkr]

/-- The only code `Demodulate` ever returns is 0. -/
theorem demodulate_ret (self : BandPassModulator α) (off : Nat) (out : Outcome α)
    (h : self.Demodulate off = .ok out) : out.ret = 0 := by
  unfold Demodulate at h
  split at h
  · split at h
    · cases h
      rfl
    · cases h
  · split at h
    · cases h
      rfl
    · cases h

theorem forLoop_step {S : Type} (cond : Nat → Bool) (next : Nat → Nat)
    (body : Nat → S → Except Fault S) (fuel i : Nat) (s s' : S)
    (hc : cond i = true) (hb : body i s = .ok s') :
    forLoop cond next body (fuel + 1) i s = forLoop cond next body fuel (next i) s' := by
  simp [forLoop, hc, hb]

theorem forLoop_exit {S : Type} (cond : Nat → Bool) (next : Nat → Nat)
    (body : Nat → S → Except Fault S) (fuel i : Nat) (s : S) (hc : cond i = false) :
    forLoop cond next body fuel i s = .ok s := by
  cases fuel <;> simp [forLoop, hc]

/-- Evaluation of `Demodulate(2^32 - 2)` with `N = 2`: the cursor `j` wraps to 0 after two reads. -/
theorem demodulate_wrap (db : List α) (c0 c1 : α × α) (cfg : Nat) (a0 a1 a2 a3 : α)
    (h0 : db[4294967294]? = some a0) (h1 : db[4294967295]? = some a1)
    (h2 : db[0]? = some a2) (h3 : db[1]? = some a3) :
    (⟨2, some [c0, c1], some db, cfg⟩ : BandPassModulator α).Demodulate 4294967294 =
      .ok ⟨0, ⟨2, some [(a0, a1), (-a2, -a3)], some db, cfg⟩,
        [.readDouble 4294967294, .writeComplex 0 0, .readDouble 4294967295, .writeComplex 0 1,
         .readDouble 0, .writeComplex 1 0, .readDouble 1, .writeComplex 1 1]⟩ := by
  have e1 : u32 (4294967294 + 1) = 4294967295 := by norm_num [u32]
  have e2 : u32 (4294967295 + 1) = 0 := by norm_num [u32]
  have e3 : u32 (0 + 1) = 1 := by norm_num [u32]
  have e4 : u32 (1 + 1) = 2 := by norm_num [u32]
  have hb := demodulateEvenBody_eq [c0, c1] db [] 0 4294967294
    c0 c1 a0 a1 a2 a3 (by norm_num) rfl rfl h0
    (by rw [e1]; exact h1) (by rw [e1, e2]; exact h2) (by rw [e1, e2, e3]; exact h3)
  rw [e1, e2, e3, e4] at hb
  have hrun := forLoop_step (fun i => decide (i < 2)) (fun i => u32 (i + 2))
    (@demodulateEvenBody α _) 1 0 _ _ (by decide) hb
  rw [forLoop_exit _ _ _ 1 (u32 (0 + 2)) _ (by decide)] at hrun
  unfold Demodulate
  simp only [Nat.mod_self, if_true, mem]
  rw [hrun]
  simp [finish]

/-! ### Traces and frames -/

theorem modulateTrace_succ (n : Nat) :
    modulateTrace (n + 1) = modulateTrace n ++
      [.readComplex n 0, .writeDouble (2 * n), .readComplex n 1, .writeDouble (2 * n + 1)] :=
  rfl

theorem modulateTrace_pair (k : Nat) :
    modulateTrace (2 * (k + 1)) = modulateTrace (2 * k) ++
      [.readComplex (2 * k) 0, .writeDouble (4 * k), .readComplex (2 * k) 1,
       .writeDouble (4 * k + 1), .readComplex (2 * k + 1) 0, .writeDouble (4 * k + 2),
       .readComplex (2 * k + 1) 1, .writeDouble (4 * k + 3)] := by
  have e : 2 * (k + 1) = 2 * k + 1 + 1 := by ring
  have e0 : 2 * (2 * k) = 4 * k := by ring
  have e1 : 2 * (2 * k + 1) = 4 * k + 2 := by ring
  rw [e, modulateTrace_succ, modulateTrace_succ, e0, e1, List.append_assoc]
  rfl

theorem demodulateTrace_succ (off n : Nat) :
    demodulateTrace off (n + 1) = demodulateTrace off n ++
      [.readDouble (off + 2 * n), .writeComplex n 0, .readDouble (off + 2 * n + 1),
       .writeComplex n 1] :=
  rfl

theorem demodulateTrace_pair (off k : Nat) :
    demodulateTrace off (2 * (k + 1)) = demodulateTrace off (2 * k) ++
      [.readDouble (off + 4 * k), .writeComplex (2 * k) 0, .readDouble (off + 4 * k + 1),
       .writeComplex (2 * k) 1, .readDouble (off + 4 * k + 2), .writeComplex (2 * k + 1) 0,
       .readDouble (off + 4 * k + 3), .writeComplex (2 * k + 1) 1] := by
  have e : 2 * (k + 1) = 2 * k + 1 + 1 := by ring
  have e0 : off + 2 * (2 * k) = off + 4 * k := by ring
  have e1 : off + 2 * (2 * k + 1) = off + 4 * k + 2 := by ring
  rw [e, demodulateTrace_succ, demodulateTrace_succ, e0, e1, List.append_assoc]
  rfl

theorem modulateEven_step_trace (cb : List (α × α)) (db : List α) (N k : Nat)
    (st st' : Nat × Mem α) (hcb : N ≤ cb.length) (hdb : 2 * N ≤ db.length)
    (hk : 2 * k + 1 < N) (hI : st.1 = 4 * k ∧ ModInv cb db (4 * k) st.2)
    (hb : modulateEvenBody (2 * k) st = .ok st') :
    st'.2.trace = st.2.trace ++
      [.readComplex (2 * k) 0, .writeDouble (4 * k), .readComplex (2 * k) 1,
       .writeDouble (4 * k + 1), .readComplex (2 * k + 1) 0, .writeDouble (4 * k + 2),
       .readComplex (2 * k + 1) 1, .writeDouble (4 * k + 3)] := by
  obtain ⟨j, mc, md, tr⟩ := st
  obtain ⟨hj, hc, db', hd, hlen, -, -⟩ := hI
  simp only at hj hc hd
  subst hj hc hd
  have h0 : cb[2 * k]? = some (cb[2 * k]) := List.getElem?_eq_getElem (by omega)
  have h1 : cb[2 * k + 1]? = some (cb[2 * k + 1]) := List.getElem?_eq_getElem (by omega)
  rw [modulateEvenBody_eq cb db' tr (2 * k) (4 * k) _ _ h0 h1 (by omega)] at hb
  cases hb
  rfl

theorem modulateOdd_step_trace (cb : List (α × α)) (db : List α) (N k : Nat)
    (st st' : Nat × Int × Mem α) (hcb : N ≤ cb.length) (hdb : 2 * N ≤ db.length)
    (hk : k < N) (hI : st.1 = 2 * k ∧ ModInv cb db (2 * k) st.2.2)
    (hb : modulateOddBody k st = .ok st') :
    st'.2.2.trace = st.2.2.trace ++
      [.readComplex k 0, .writeDouble (2 * k), .readComplex k 1, .writeDouble (2 * k + 1)] := by
  obtain ⟨j, s, mc, md, tr⟩ := st
  obtain ⟨hj, hc, db', hd, hlen, -, -⟩ := hI
  simp only at hj hc hd
  subst hj hc hd
  have h0 : cb[k]? = some (cb[k]) := List.getElem?_eq_getElem (by omega)
  rw [modulateOddBody_eq cb db' tr k (2 * k) s _ h0 (by omega)] at hb
  cases hb
  rfl

/-- The even loop of `Modulate()` for even `N`: result and trace. -/
theorem modulateEven_loop (cb : List (α × α)) (db : List α) (N : Nat) (hpar : N % 2 = 0)
    (hcb : N ≤ cb.length) (hdb : 2 * N ≤ db.length) :
    ∃ st', forLoop (fun i => decide (i < N)) (fun i => i + 2) modulateEvenBody N 0
        (0, (⟨some cb, some db, []⟩ : Mem α)) = .ok st' ∧
      ModInv cb db (2 * N) st'.2 ∧ st'.2.trace = modulateTrace N := by
  have hinit : ModInv cb db 0 (⟨some cb, some db, []⟩ : Mem α) :=
    ⟨rfl, db, rfl, rfl, fun t c ht => absurd ht (Nat.not_lt_zero t), fun t _ => rfl⟩
  obtain ⟨st', hrun, -, hI, htr⟩ := forLoop_spec
    (fun i => decide (i < N)) (fun i => i + 2) modulateEvenBody
    (fun k (st : Nat × Mem α) =>
      st.1 = 4 * k ∧ ModInv cb db (4 * k) st.2 ∧ st.2.trace = modulateTrace (2 * k))
    (fun k => 2 * k) (N / 2)
    (fun k _ => by ring)
    (fun k hk => by simp; omega)
    (by simp; omega)
    (fun k st hk hI => by
      obtain ⟨st', hb, hj, hd⟩ :=
        modulateEven_step cb db N k st hcb hdb (by omega) ⟨hI.1, hI.2.1⟩
      refine ⟨st', hb, hj, hd, ?_⟩
      rw [modulateEven_step_trace cb db N k st st' hcb hdb (by omega) ⟨hI.1, hI.2.1⟩ hb,
        hI.2.2, modulateTrace_pair])
    N 0 (0, ⟨some cb, some db, []⟩) (Nat.zero_le _) (by omega) ⟨rfl, hinit, rfl⟩
  have e : 2 * (N / 2) = N := by omega
  have e4 : 4 * (N / 2) = 2 * N := by omega
  rw [e] at htr
  rw [e4] at hI
  simp only [Nat.mul_zero] at hrun
  exact ⟨st', hrun, hI, htr⟩

/-- The odd loop of `Modulate()` for every `N`: result and trace. -/
theorem modulateOdd_loop (cb : List (α × α)) (db : List α) (N : Nat)
    (hcb : N ≤ cb.length) (hdb : 2 * N ≤ db.length) :
    ∃ st', forLoop (fun i => decide (i < N)) (fun i => i + 1) modulateOddBody N 0
        (0, 1, (⟨some cb, some db, []⟩ : Mem α)) = .ok st' ∧
      ModInv cb db (2 * N) st'.2.2 ∧ st'.2.2.trace = modulateTrace N := by
  have hinit : ModInv cb db 0 (⟨some cb, some db, []⟩ : Mem α) :=
    ⟨rfl, db, rfl, rfl, fun t c ht => absurd ht (Nat.not_lt_zero t), fun t _ => rfl⟩
  obtain ⟨st', hrun, -, -, hI, htr⟩ := forLoop_spec
    (fun i => decide (i < N)) (fun i => i + 1) modulateOddBody
    (fun k (st : Nat × Int × Mem α) =>
      st.1 = 2 * k ∧ st.2.1 = signOf k ∧ ModInv cb db (2 * k) st.2.2 ∧
        st.2.2.trace = modulateTrace k)
    (fun k => k) N
    (fun k _ => rfl)
    (fun k hk => by simp; omega)
    (by simp)
    (fun k st hk hI => by
      obtain ⟨st', hb, hj, hs, hd⟩ :=
        modulateOdd_step cb db N k st hcb hdb hk ⟨hI.1, hI.2.1, hI.2.2.1⟩
      refine ⟨st', hb, hj, hs, hd, ?_⟩
      rw [modulateOdd_step_trace cb db N k st st' hcb hdb hk ⟨hI.1, hI.2.2.1⟩ hb,
        hI.2.2.2, modulateTrace_succ])
    N 0 (0, 1, ⟨some cb, some db, []⟩) (Nat.zero_le _) (by omega) ⟨rfl, rfl, hinit, rfl⟩
  exact ⟨st', hrun, hI, htr⟩

theorem modInv_unique (cb : List (α × α)) (db : List α) (w : Nat) (m m' : Mem α)
    (hw : w ≤ 2 * cb.length) (h : ModInv cb db w m) (h' : ModInv cb db w m') :
    m.doubleBuffer = m'.doubleBuffer := by
  obtain ⟨-, d, hd, hlen, hlo, hhi⟩ := h
  obtain ⟨-, d', hd', hlen', hlo', hhi'⟩ := h'
  rw [hd, hd']
  congr 1
  apply List.ext_getElem?
  intro t
  by_cases ht : t < w
  · have hc : cb[t / 2]? = some (cb[t / 2]) := List.getElem?_eq_getElem (by omega)
    rw [hlo t _ ht hc, hlo' t _ ht hc]
  · rw [hhi t (by omega), hhi' t (by omega)]

/-- Result and trace of `Modulate()`, for both parities. -/
theorem modulate_full (self : BandPassModulator α) (cb : List (α × α)) (db : List α)
    (hc : self.complexBuffer = some cb) (hd : self.doubleBuffer = some db)
    (hcb : self.nPoints ≤ cb.length) (hdb : 2 * self.nPoints ≤ db.length) :
    ∃ db', self.Modulate =
        .ok ⟨0, { self with doubleBuffer := some db' }, modulateTrace self.nPoints⟩ ∧
      ModInv cb db (2 * self.nPoints) ⟨some cb, some db', modulateTrace self.nPoints⟩ := by
  obtain ⟨N, scb, sdb, cfg⟩ := self
  simp only at hc hd hcb hdb
  subst hc hd
  by_cases hpar : N % 2 = 0
  · obtain ⟨st', hrun, hI, htr⟩ := modulateEven_loop cb db N hpar hcb hdb
    obtain ⟨j', mc, md, tr⟩ := st'
    obtain ⟨hc', db', hd', hrest⟩ := hI
    simp only at hc' hd' htr
    subst hc' hd' htr
    refine ⟨db', ?_, rfl, db', rfl, hrest⟩
    simp only [Modulate, mem, hpar, if_true]
    rw [hrun]
    rfl
  · obtain ⟨st', hrun, hI, htr⟩ := modulateOdd_loop cb db N hcb hdb
    obtain ⟨j', s', mc, md, tr⟩ := st'
    obtain ⟨hc', db', hd', hrest⟩ := hI
    simp only at hc' hd' htr
    subst hc' hd' htr
    refine ⟨db', ?_, rfl, db', rfl, hrest⟩
    simp only [Modulate, mem, hpar, if_false]
    rw [hrun]
    rfl

/-- Result and trace of the odd branch of `Modulate()` run on any `N`. -/
theorem modulateOddBranch_full (self : BandPassModulator α) (cb : List (α × α)) (db : List α)
    (hc : self.complexBuffer = some cb) (hd : self.doubleBuffer = some db)
    (hcb : self.nPoints ≤ cb.length) (hdb : 2 * self.nPoints ≤ db.length) :
    ∃ db', self.ModulateOddBranch =
        .ok ⟨0, { self with doubleBuffer := some db' }, modulateTrace self.nPoints⟩ ∧
      ModInv cb db (2 * self.nPoints) ⟨some cb, some db', modulateTrace self.nPoints⟩ := by
  obtain ⟨N, scb, sdb, cfg⟩ := self
  simp only at hc hd hcb hdb
  subst hc hd
  obtain ⟨st', hrun, hI, htr⟩ := modulateOdd_loop cb db N hcb hdb
  obtain ⟨j', s', mc, md, tr⟩ := st'
  obtain ⟨hc', db', hd', hrest⟩ := hI
  simp only at hc' hd' htr
  subst hc' hd' htr
  refine ⟨db', ?_, rfl, db', rfl, hrest⟩
  simp only [ModulateOddBranch, mem]
  rw [hrun]
  rfl

/-- Result and trace of the even branch of `Modulate()` run on an even `N`. -/
theorem modulateEvenBranch_full (self : BandPassModulator α) (cb : List (α × α))
    (db : List α) (hc : self.complexBuffer = some cb) (hd : self.doubleBuffer = some db)
    (hpar : self.nPoints % 2 = 0)
    (hcb : self.nPoints ≤ cb.length) (hdb : 2 * self.nPoints ≤ db.length) :
    ∃ db', self.ModulateEvenBranch =
        .ok ⟨0, { self with doubleBuffer := some db' }, modulateTrace self.nPoints⟩ ∧
      ModInv cb db (2 * self.nPoints) ⟨some cb, some db', modulateTrace self.nPoints⟩ := by
  obtain ⟨N, scb, sdb, cfg⟩ := self
  simp only at hc hd hcb hdb hpar
  subst hc hd
  obtain ⟨st', hrun, hI, htr⟩ := modulateEven_loop cb db N hpar hcb hdb
  obtain ⟨j', mc, md, tr⟩ := st'
  obtain ⟨hc', db', hd', hrest⟩ := hI
  simp only at hc' hd' htr
  subst hc' hd' htr
  refine ⟨db', ?_, rfl, db', rfl, hrest⟩
  simp only [ModulateEvenBranch, mem]
  rw [hrun]
  rfl

theorem mem_modulateTrace_write (n j : Nat) :
    Access.writeDouble j ∈ modulateTrace n ↔ j < 2 * n := by
  induction n with
  | zero => simp [modulateTrace]
  | succ n ih =>
    rw [modulateTrace_succ, List.mem_append, ih]
    simp
    omega

theorem mem_modulateTrace_read (n i : Nat) (p : Fin 2) :
    Access.readComplex i p ∈ modulateTrace n ↔ i < n := by
  induction n with
  | zero => simp [modulateTrace]
  | succ n ih =>
    rw [modulateTrace_succ, List.mem_append, ih]
    simp
    constructor
    · rintro (h | h | h)
      · omega
      · omega
      · omega
    · intro h
      by_cases hn : i = n
      · subst hn
        rcases Fin.exists_fin_two.mp ⟨p, rfl⟩ with hp | hp
        · exact Or.inr (Or.inl ⟨rfl, hp⟩)
        · exact Or.inr (Or.inr ⟨rfl, hp⟩)
      · exact Or.inl (by omega)

theorem mem_modulateTrace_kind (n : Nat) (a : Access) (h : a ∈ modulateTrace n) :
    (∃ i p, a = .readComplex i p) ∨ ∃ j, a = .writeDouble j := by
  induction n with
  | zero => simp [modulateTrace] at h
  | succ n ih =>
    rw [modulateTrace_succ, List.mem_append] at h
    rcases h with h | h
    · exact ih h
    · simp at h
      rcases h with h | h | h | h <;> subst h
      · exact Or.inl ⟨_, _, rfl⟩
      · exact Or.inr ⟨_, rfl⟩
      · exact Or.inl ⟨_, _, rfl⟩
      · exact Or.inr ⟨_, rfl⟩

theorem demodulateEven_step_trace (cb : List (α × α)) (db : List α) (off k : Nat)
    (st st' : Nat × Mem α) (hi : 2 * k + 1 < 4294967296)
    (hcb : 2 * k + 1 < cb.length) (hdb : off + 4 * k + 4 ≤ db.length)
    (hoff : off + 4 * k + 4 ≤ 4294967296)
    (hI : st.1 = u32 (off + 4 * k) ∧ DemodInv cb db off (2 * k) st.2)
    (hb : demodulateEvenBody (2 * k) st = .ok st') :
    st'.2.trace = st.2.trace ++
      [.readDouble (off + 4 * k), .writeComplex (2 * k) 0, .readDouble (off + 4 * k + 1),
       .writeComplex (2 * k) 1, .readDouble (off + 4 * k + 2), .writeComplex (2 * k + 1) 0,
       .readDouble (off + 4 * k + 3), .writeComplex (2 * k + 1) 1] := by
  obtain ⟨j, mc, md, tr⟩ := st
  obtain ⟨hj, hd, cb', hc, hlen, -, -⟩ := hI
  simp only at hj hc hd
  have hj0 : j = off + 4 * k := by rw [hj]; exact u32_of_lt (by omega)
  clear hj
  subst hj0 hc hd
  have u1 : u32 (off + 4 * k + 1) = off + 4 * k + 1 := u32_of_lt (by omega)
  have u2 : u32 (off + 4 * k + 1 + 1) = off + 4 * k + 2 := u32_of_lt (by omega)
  have u3 : u32 (off + 4 * k + 2 + 1) = off + 4 * k + 3 := u32_of_lt (by omega)
  have hc0 : cb'[2 * k]? = some (cb'[2 * k]) := List.getElem?_eq_getElem (by omega)
  have hc1 : cb'[2 * k + 1]? = some (cb'[2 * k + 1]) := List.getElem?_eq_getElem (by omega)
  have h0 : db[off + 4 * k]? = some (db[off + 4 * k]) := List.getElem?_eq_getElem (by omega)
  have h1 : db[off + 4 * k + 1]? = some (db[off + 4 * k + 1]) :=
    List.getElem?_eq_getElem (by omega)
  have h2 : db[off + 4 * k + 2]? = some (db[off + 4 * k + 2]) :=
    List.getElem?_eq_getElem (by omega)
  have h3 : db[off + 4 * k + 3]? = some (db[off + 4 * k + 3]) :=
    List.getElem?_eq_getElem (by omega)
  have hbe := demodulateEvenBody_eq cb' db tr (2 * k) (off + 4 * k) _ _ _ _ _ _ (by omega)
    hc0 hc1 h0 (by rw [u1]; exact h1) (by rw [u1, u2]; exact h2)
    (by rw [u1, u2, u3]; exact h3)
  simp only [u1, u2, u3] at hbe
  rw [hbe] at hb
  cases hb
  rfl

theorem demodulateOdd_step_trace (cb : List (α × α)) (db : List α) (off k : Nat)
    (st st' : Nat × Int × Mem α)
    (hcb : k < cb.length) (hdb : off + 2 * k + 2 ≤ db.length)
    (hoff : off + 2 * k + 2 ≤ 4294967296)
    (hI : st.1 = u32 (off + 2 * k) ∧ DemodInv cb db off k st.2.2)
    (hb : demodulateOddBody k st = .ok st') :
    st'.2.2.trace = st.2.2.trace ++
      [.readDouble (off + 2 * k), .writeComplex k 0, .readDouble (off + 2 * k + 1),
       .writeComplex k 1] := by
  obtain ⟨j, s, mc, md, tr⟩ := st
  obtain ⟨hj, hd, cb', hc, hlen, -, -⟩ := hI
  simp only at hj hc hd
  have hj0 : j = off + 2 * k := by rw [hj]; exact u32_of_lt (by omega)
  clear hj
  subst hj0 hc hd
  have u1 : u32 (off + 2 * k + 1) = off + 2 * k + 1 := u32_of_lt (by omega)
  have hc0 : cb'[k]? = some (cb'[k]) := List.getElem?_eq_getElem (by omega)
  have h0 : db[off + 2 * k]? = some (db[off + 2 * k]) := List.getElem?_eq_getElem (by omega)
  have h1 : db[off + 2 * k + 1]? = some (db[off + 2 * k + 1]) :=
    List.getElem?_eq_getElem (by omega)
  have hbe := demodulateOddBody_eq cb' db tr k (off + 2 * k) s _ _ _ hc0
    h0 (by rw [u1]; exact h1)
  simp only [u1] at hbe
  rw [hbe] at hb
  cases hb
  rfl

/-- Result and trace of `Demodulate(off)`, for both parities, when the window
`[off, off + 2 * N)` lies inside the real buffer and below `2^32`. -/
theorem demodulate_full (self : BandPassModulator α) (cb : List (α × α)) (db : List α)
    (off : Nat) (hc : self.complexBuffer = some cb) (hd : self.doubleBuffer = some db)
    (hN : self.nPoints < 65536) (hcb : self.nPoints ≤ cb.length)
    (hdb : off + 2 * self.nPoints ≤ db.length) (hoff : off + 2 * self.nPoints ≤ 4294967296) :
    ∃ cb', self.Demodulate off =
        .ok ⟨0, { self with complexBuffer := some cb' }, demodulateTrace off self.nPoints⟩ ∧
      DemodInv cb db off self.nPoints
        ⟨some cb', some db, demodulateTrace off self.nPoints⟩ := by
  obtain ⟨N, scb, sdb, cfg⟩ := self
  simp only at hc hd hN hcb hdb hoff
  subst hc hd
  have hinit : DemodInv cb db off 0 (⟨some cb, some db, []⟩ : Mem α) :=
    ⟨rfl, cb, rfl, rfl, fun i _ _ hi => absurd hi (Nat.not_lt_zero i), fun i _ => rfl⟩
  by_cases hz : N = 0
  · subst hz
    exact ⟨cb, by simp [Demodulate, forLoop, finish, mem, demodulateTrace], hinit⟩
  have hoff0 : off = u32 (off + 0) := (u32_of_lt (by omega)).symm
  by_cases hpar : N % 2 = 0
  · obtain ⟨st', hrun, hj, hI, htr⟩ := forLoop_spec
      (fun i => decide (i < N)) (fun i => u32 (i + 2)) demodulateEvenBody
      (fun k (st : Nat × Mem α) =>
        st.1 = u32 (off + 4 * k) ∧ DemodInv cb db off (2 * k) st.2 ∧
          st.2.trace = demodulateTrace off (2 * k))
      (fun k => 2 * k) (N / 2)
      (fun k hk => by
        show u32 (2 * k + 2) = 2 * (k + 1)
        rw [u32_of_lt (by omega)]; ring)
      (fun k hk => by simp; omega)
      (by simp; omega)
      (fun k st hk hI => by
        obtain ⟨st', hb, hj, hd⟩ := demodulateEven_step cb db off k st (by omega) (by omega)
          (by omega) (by omega) ⟨hI.1, hI.2.1⟩
        refine ⟨st', hb, hj, hd, ?_⟩
        rw [demodulateEven_step_trace cb db off k st st' (by omega) (by omega) (by omega)
          (by omega) ⟨hI.1, hI.2.1⟩ hb, hI.2.2, demodulateTrace_pair])
      N 0 (off, ⟨some cb, some db, []⟩) (Nat.zero_le _) (by omega) ⟨hoff0, hinit, rfl⟩
    have e : 2 * (N / 2) = N := by omega
    rw [e] at hI htr
    obtain ⟨j', mc, md, tr⟩ := st'
    obtain ⟨hd', cb', hc', hrest⟩ := hI
    simp only at hc' hd' htr
    subst hc' hd' htr
    refine ⟨cb', ?_, rfl, cb', rfl, hrest⟩
    simp only [Demodulate, mem, hpar, if_true]
    simp only [Nat.mul_zero] at hrun
    rw [hrun]
    rfl
  · obtain ⟨st', hrun, hj, hs, hI, htr⟩ := forLoop_spec
      (fun i => decide (i < N)) (fun i => u32 (i + 1)) demodulateOddBody
      (fun k (st : Nat × Int × Mem α) =>
        st.1 = u32 (off + 2 * k) ∧ st.2.1 = signOf k ∧ DemodInv cb db off k st.2.2 ∧
          st.2.2.trace = demodulateTrace off k)
      (fun k => k) N
      (fun k hk => by
        show u32 (k + 1) = k + 1
        exact u32_of_lt (by omega))
      (fun k hk => by simp; omega)
      (by simp)
      (fun k st hk hI => by
        obtain ⟨st', hb, hj, hs, hd⟩ := demodulateOdd_step cb db off k st (by omega)
          (by omega) (by omega) ⟨hI.1, hI.2.1, hI.2.2.1⟩
        refine ⟨st', hb, hj, hs, hd, ?_⟩
        rw [demodulateOdd_step_trace cb db off k st st' (by omega) (by omega) (by omega)
          ⟨hI.1, hI.2.2.1⟩ hb, hI.2.2.2, demodulateTrace_succ])
      N 0 (off, 1, ⟨some cb, some db, []⟩) (Nat.zero_le _) (by omega)
      ⟨hoff0, rfl, hinit, rfl⟩
    obtain ⟨j', s', mc, md, tr⟩ := st'
    obtain ⟨hd', cb', hc', hrest⟩ := hI
    simp only at hc' hd' htr
    subst hc' hd' htr
    refine ⟨cb', ?_, rfl, cb', rfl, hrest⟩
    simp only [Demodulate, mem, hpar, if_false]
    rw [hrun]
    rfl

theorem mem_demodulateTrace_read (off n j : Nat) :
    Access.readDouble j ∈ demodulateTrace off n ↔ off ≤ j ∧ j < off + 2 * n := by
  induction n with
  | zero =>
    simp [demodulateTrace]
  | succ n ih =>
    rw [demodulateTrace_succ, List.mem_append, ih]
    simp
    omega

theorem mem_demodulateTrace_write (off n i : Nat) (p : Fin 2) :
    Access.writeComplex i p ∈ demodulateTrace off n ↔ i < n := by
  induction n with
  | zero => simp [demodulateTrace]
  | succ n ih =>
    rw [demodulateTrace_succ, List.mem_append, ih]
    simp
    constructor
    · rintro (h | h | h)
      · omega
      · omega
      · omega
    · intro h
      by_cases hn : i = n
      · subst hn
        rcases Fin.exists_fin_two.mp ⟨p, rfl⟩ with hp | hp
        · exact Or.inr (Or.inl ⟨rfl, hp⟩)
        · exact Or.inr (Or.inr ⟨rfl, hp⟩)
      · exact Or.inl (by omega)

theorem mem_demodulateTrace_kind (off n : Nat) (a : Access) (h : a ∈ demodulateTrace off n) :
    (∃ j, a = .readDouble j) ∨ ∃ i p, a = .writeComplex i p := by
  induction n with
  | zero => simp [demodulateTrace] at h
  | succ n ih =>
    rw [demodulateTrace_succ, List.mem_append] at h
    rcases h with h | h
    · exact ih h
    · simp at h
      rcases h with h | h | h | h <;> subst h
      · exact Or.inl ⟨_, rfl⟩
      · exact Or.inr ⟨_, _, rfl⟩
      · exact Or.inl ⟨_, rfl⟩
      · exact Or.inr ⟨_, _, rfl⟩

theorem demodulateEvenBody_frame (N : Nat) (m0 : Mem α) (i : Nat) (st st' : Nat × Mem α)
    (hi : i + 1 < N) (hi32 : i + 1 < 4294967296)
    (hb : demodulateEvenBody i st = .ok st') (hF : DemodFrame N m0 st.2) :
    DemodFrame N m0 st'.2 := by
  have hu : u32 (i + 1) = i + 1 := u32_of_lt hi32
  simp only [demodulateEvenBody, except_bind_ok, Prod.exists, hu] at hb
  obtain ⟨v0, m1, h1, m2, h2, v1, m3, h3, m4, h4, v2, m5, h5, m6, h6, v3, m7, h7, m8, h8,
    hret⟩ := hb
  cases hret
  have f1 := demodFrame_load N m0 _ _ _ _ h1 hF
  have f2 := demodFrame_store N m0 _ _ _ _ _ (by omega) h2 f1
  have f3 := demodFrame_load N m0 _ _ _ _ h3 f2
  have f4 := demodFrame_store N m0 _ _ _ _ _ (by omega) h4 f3
  have f5 := demodFrame_load N m0 _ _ _ _ h5 f4
  have f6 := demodFrame_store N m0 _ _ _ _ _ hi h6 f5
  have f7 := demodFrame_load N m0 _ _ _ _ h7 f6
  exact demodFrame_store N m0 _ _ _ _ _ hi h8 f7

theorem demodulateOddBody_frame (N : Nat) (m0 : Mem α) (i : Nat) (st st' : Nat × Int × Mem α)
    (hi : i < N)
    (hb : demodulateOddBody i st = .ok st') (hF : DemodFrame N m0 st.2.2) :
    DemodFrame N m0 st'.2.2 := by
  simp only [demodulateOddBody, except_bind_ok, Prod.exists] at hb
  obtain ⟨v0, m1, h1, m2, h2, v1, m3, h3, m4, h4, hret⟩ := hb
  cases hret
  have f1 := demodFrame_load N m0 _ _ _ _ h1 hF
  have f2 := demodFrame_store N m0 _ _ _ _ _ hi h2 f1
  have f3 := demodFrame_load N m0 _ _ _ _ h3 f2
  exact demodFrame_store N m0 _ _ _ _ _ hi h4 f3

/-- Frame of `Demodulate`: whenever the call returns, it returns 0, `nPoints` and `configured`
are as before and the memory is within `DemodFrame`. -/
theorem demodulate_frame (self : BandPassModulator α) (off : Nat) (out : Outcome α)
    (hN : self.nPoints < 65536) (h : self.Demodulate off = .ok out) :
    out.ret = 0 ∧ out.self.nPoints = self.nPoints ∧ out.self.configured = self.configured ∧
    DemodFrame self.nPoints self.mem
      ⟨out.self.complexBuffer, out.self.doubleBuffer, out.trace⟩ := by
  unfold Demodulate at h
  split at h
  · rename_i hpar
    split at h
    · rename_i st hst
      cases h
      refine ⟨rfl, rfl, rfl, ?_⟩
      exact forLoop_preserves _ _ _ (fun i => i % 2 = 0)
        (fun (s : Nat × Mem α) => DemodFrame self.nPoints self.mem s.2)
        (fun i hq hc => by
          have hlt : i < self.nPoints := by simpa using hc
          show u32 (i + 2) % 2 = 0
          rw [u32_of_lt (by omega)]
          omega)
        (fun i s s' hq hc hb hP => by
          have hlt : i < self.nPoints := by simpa using hc
          exact demodulateEvenBody_frame _ _ i s s' (by omega) (by omega) hb hP)
        _ _ _ _ rfl (demodFrame_refl _ _) hst
    · cases h
  · split at h
    · rename_i st hst
      cases h
      refine ⟨rfl, rfl, rfl, ?_⟩
      exact forLoop_preserves _ _ _ (fun _ => True)
        (fun (s : Nat × Int × Mem α) => DemodFrame self.nPoints self.mem s.2.2)
        (fun _ _ _ => trivial)
        (fun i s s' _ hc hb hP => by
          have hlt : i < self.nPoints := by simpa using hc
          exact demodulateOddBody_frame _ _ i s s' hlt hb hP)
        _ _ _ _ trivial (demodFrame_refl _ _) hst
    · cases h

theorem modulateEvenBody_frame (m0 : Mem α) (i : Nat) (st st' : Nat × Mem α)
    (hb : modulateEvenBody i st = .ok st') (hF : ModFrame m0 st.2) : ModFrame m0 st'.2 := by
  simp only [modulateEvenBody, except_bind_ok, Prod.exists] at hb
  obtain ⟨v0, m1, h1, m2, h2, v1, m3, h3, m4, h4, v2, m5, h5, m6, h6, v3, m7, h7, m8, h8,
    hret⟩ := hb
  cases hret
  have f1 := modFrame_load m0 _ _ _ _ _ h1 hF
  have f2 := modFrame_store m0 _ _ _ _ h2 f1
  have f3 := modFrame_load m0 _ _ _ _ _ h3 f2
  have f4 := modFrame_store m0 _ _ _ _ h4 f3
  have f5 := modFrame_load m0 _ _ _ _ _ h5 f4
  have f6 := modFrame_store m0 _ _ _ _ h6 f5
  have f7 := modFrame_load m0 _ _ _ _ _ h7 f6
  exact modFrame_store m0 _ _ _ _ h8 f7

theorem modulateOddBody_frame (m0 : Mem α) (i : Nat) (st st' : Nat × Int × Mem α)
    (hb : modulateOddBody i st = .ok st') (hF : ModFrame m0 st.2.2) :
    ModFrame m0 st'.2.2 := by
  simp only [modulateOddBody, except_bind_ok, Prod.exists] at hb
  obtain ⟨v0, m1, h1, m2, h2, v1, m3, h3, m4, h4, hret⟩ := hb
  cases hret
  have f1 := modFrame_load m0 _ _ _ _ _ h1 hF
  have f2 := modFrame_store m0 _ _ _ _ h2 f1
  have f3 := modFrame_load m0 _ _ _ _ _ h3 f2
  exact modFrame_store m0 _ _ _ _ h4 f3

/-- Frame of `Modulate()`: whenever the call returns, `nPoints`, `configured` and the complex
buffer are as before and the real buffer keeps its length. -/
theorem modulate_frame (self : BandPassModulator α) (out : Outcome α)
    (h : self.Modulate = .ok out) :
    out.self.nPoints = self.nPoints ∧ out.self.configured = self.configured ∧
    ModFrame self.mem ⟨out.self.complexBuffer, out.self.doubleBuffer, out.trace⟩ := by
  unfold Modulate at h
  split at h
  · split at h
    · rename_i st hst
      cases h
      refine ⟨rfl, rfl, ?_⟩
      exact forLoop_preserves _ _ _ (fun _ => True)
        (fun (s : Nat × Mem α) => ModFrame self.mem s.2)
        (fun _ _ _ => trivial)
        (fun i s s' _ _ hb hP => modulateEvenBody_frame _ i s s' hb hP)
        _ _ _ _ trivial (modFrame_refl _) hst
    · cases h
  · split at h
    · rename_i st hst
      cases h
      refine ⟨rfl, rfl, ?_⟩
      exact forLoop_preserves _ _ _ (fun _ => True)
        (fun (s : Nat × Int × Mem α) => ModFrame self.mem s.2.2)
        (fun _ _ _ => trivial)
        (fun i s s' _ _ hb hP => modulateOddBody_frame _ i s s' hb hP)
        _ _ _ _ trivial (modFrame_refl _) hst
    · cases h

/-- Calls of `Modulate()` and `Demodulate` keep `nPoints` and the sizes of the two buffers. -/
theorem applyOp_shape (N lc ld : Nat) (self : BandPassModulator α) (op : Op)
    (out : Outcome α) (hN : N < 65536) (hS : Shape N lc ld self)
    (h : self.applyOp op = .ok out) : Shape N lc ld out.self := by
  obtain ⟨hn, ⟨cb, hcb, hlc⟩, db, hdb, hld⟩ := hS
  cases op with
  | modulate =>
    obtain ⟨hn', -, hc', hd'⟩ := modulate_frame self out h
    obtain ⟨db', hdb', hlen⟩ := hd' db hdb
    simp only [mem] at hc' hdb'
    exact ⟨hn'.trans hn, ⟨cb, hc'.trans hcb, hlc⟩, db', hdb', hlen.trans hld⟩
  | demodulate off =>
    obtain ⟨-, hn', -, hd', hc', -, -⟩ := demodulate_frame self off out (by omega) h
    obtain ⟨cb', hcb', hlen, -⟩ := hc' cb hcb
    simp only [mem] at hd' hcb'
    exact ⟨hn'.trans hn, ⟨cb', hcb', hlen.trans hlc⟩, db, hd'.trans hdb, hld⟩

theorem runOps_shape (N lc ld : Nat) (hN : N < 65536) (ops : List Op) :
    ∀ (self s : BandPassModulator α), Shape N lc ld self → self.runOps ops = .ok s →
      Shape N lc ld s := by
  induction ops with
  | nil =>
    intro self s hS h
    cases h
    exact hS
  | cons op ops ih =>
    intro self s hS h
    unfold runOps at h
    split at h
    · rename_i out hout
      exact ih out.self s (applyOp_shape N lc ld self op out hN hS hout) h
    · cases h

theorem signed_eq_pow (i : Nat) (v : α) : signed i v = (-1 : α) ^ i * v := by
  unfold signed
  rcases Nat.even_or_odd i with h | h
  · rw [if_pos (Nat.even_iff.mp h), h.neg_one_pow, one_mul]
  · rw [if_neg (by rw [Nat.odd_iff.mp h]; decide), h.neg_one_pow, neg_one_mul]

/-! ## The claims -/

/-- C1. Round trip: for every `N` (a `uint16_t`; both parities, `N = 0` included), every
complex vector `x` of length `N` and every real buffer of length at least `2 * N`, on the
instance configured with them `Modulate()` returns 0, the following `Demodulate(0)` returns 0,
and `complexBuffer` is then equal to `x`. -/
theorem roundtrip_modulate_demodulate (inst : BandPassModulator α) (N : Nat)
    (x : List (α × α)) (db : List α) (hN : N < 65536) (hx : x.length = N)
    (hdb : 2 * N ≤ db.length) :
    ∃ o1 o2, (inst.Configure N (some x) (some db)).self.Modulate = .ok o1 ∧ o1.ret = 0 ∧
      o1.self.Demodulate 0 = .ok o2 ∧ o2.ret = 0 ∧ o2.self.complexBuffer = some x := by
  obtain ⟨db', tr, h1, hlen, hlo, -⟩ :=
    modulate_result (⟨N, some x, some db, 1⟩ : BandPassModulator α) x db rfl rfl
      (by simp [hx]) hdb
  obtain ⟨cb', tr2, h2, hlen2, hlo2, -⟩ :=
    demodulate_result (⟨N, some x, some db', 1⟩ : BandPassModulator α) x db' 0 rfl rfl hN
      (by simp [hx]) (by simp only [hlen]; omega) (by simp only; omega)
  refine ⟨_, _, h1, rfl, h2, rfl, ?_⟩
  show some cb' = some x
  congr 1
  apply List.ext_getElem?
  intro i
  by_cases hi : i < N
  · have hxi : x[i]? = some (x[i]) := List.getElem?_eq_getElem (by omega)
    have e0 : 2 * i / 2 = i := by omega
    have e1 : (2 * i + 1) / 2 = i := by omega
    have g0 := hlo (2 * i) (x[i]) (by simp only; omega)
      ((congrArg (fun n => x[n]?) e0).trans hxi)
    have g1 := hlo (2 * i + 1) (x[i]) (by simp only; omega)
      ((congrArg (fun n => x[n]?) e1).trans hxi)
    have m0 : 2 * i % 2 = 0 := by omega
    have m1 : ¬ ((2 * i + 1) % 2 = 0) := by omega
    simp only [e0, m0, if_true] at g0
    simp only [e1, m1, if_false] at g1
    have := hlo2 i _ _ hi (by rw [Nat.zero_add]; exact g0) (by rw [Nat.zero_add]; exact g1)
    rw [this, hxi, signed_signed, signed_signed]
  · rw [List.getElem?_eq_none (by omega), List.getElem?_eq_none (by omega)]

/-- Witness of C1 at `N = 4`: the hypotheses hold and the round trip returns the samples. -/
theorem roundtrip_modulate_demodulate_witness :
    ∃ o1 o2, (evenInstance.Configure 4 (some [(1, 2), (3, 4), (5, 6), (7, 8)])
        (some [0, 0, 0, 0, 0, 0, 0, 0])).self.Modulate = .ok o1 ∧ o1.ret = 0 ∧
      o1.self.Demodulate 0 = .ok o2 ∧ o2.ret = 0 ∧
      o2.self.complexBuffer = some [(1, 2), (3, 4), (5, 6), (7, 8)] :=
  roundtrip_modulate_demodulate evenInstance 4 [(1, 2), (3, 4), (5, 6), (7, 8)]
    [0, 0, 0, 0, 0, 0, 0, 0] (by decide) (by decide) (by decide)

/-- C2. Even-`N` interleave pattern: for every even `N`, on an instance holding the samples
`cb` (at least `N` of them) and a real buffer of length at least `2 * N`, `Modulate()` returns 0
and leaves, for every `k < N / 2`, `out[4k] = Re(in[2k])`, `out[4k+1] = Im(in[2k])`,
`out[4k+2] = -Re(in[2k+1])`, `out[4k+3] = -Im(in[2k+1])`. -/
theorem modulate_even_interleave (self : BandPassModulator α) (cb : List (α × α))
    (db : List α) (hc : self.complexBuffer = some cb) (hd : self.doubleBuffer = some db)
    (heven : self.nPoints % 2 = 0) (hcb : self.nPoints ≤ cb.length)
    (hdb : 2 * self.nPoints ≤ db.length) :
    ∃ db' tr, self.Modulate = .ok ⟨0, { self with doubleBuffer := some db' }, tr⟩ ∧
      ∀ k c0 c1, k < self.nPoints / 2 → cb[2 * k]? = some c0 → cb[2 * k + 1]? = some c1 →
        db'[4 * k]? = some c0.1 ∧ db'[4 * k + 1]? = some c0.2 ∧
        db'[4 * k + 2]? = some (-c1.1) ∧ db'[4 * k + 3]? = some (-c1.2) := by
  obtain ⟨db', tr, h1, -, hlo, -⟩ := modulate_result self cb db hc hd hcb hdb
  refine ⟨db', tr, h1, ?_⟩
  intro k c0 c1 hk h0 h1
  have e0 : 4 * k / 2 = 2 * k := by omega
  have e1 : (4 * k + 1) / 2 = 2 * k := by omega
  have e2 : (4 * k + 2) / 2 = 2 * k + 1 := by omega
  have e3 : (4 * k + 3) / 2 = 2 * k + 1 := by omega
  have g0 := hlo (4 * k) c0 (by omega) (by rw [e0]; exact h0)
  have g1 := hlo (4 * k + 1) c0 (by omega) (by rw [e1]; exact h0)
  have g2 := hlo (4 * k + 2) c1 (by omega) (by rw [e2]; exact h1)
  have g3 := hlo (4 * k + 3) c1 (by omega) (by rw [e3]; exact h1)
  simp only [signed, e0, e1, e2, e3] at g0 g1 g2 g3
  rw [if_pos (by omega), if_pos (by omega)] at g0
  rw [if_pos (by omega), if_neg (by omega)] at g1
  rw [if_neg (by omega), if_pos (by omega)] at g2
  rw [if_neg (by omega), if_neg (by omega)] at g3
  exact ⟨g0, g1, g2, g3⟩

/-- Witness of C2: `N = 4`, samples `(1,2),(3,4),(5,6),(7,8)` give exactly
`[1,2,-3,-4,5,6,-7,-8]`, and the pattern of the theorem holds there. -/
theorem modulate_even_interleave_witness :
    evenInstance.Modulate.map (fun o => (o.ret, o.self.doubleBuffer)) =
        .ok (0, some [1, 2, -3, -4, 5, 6, -7, -8]) ∧
      ∃ db' tr, evenInstance.Modulate =
          .ok ⟨0, { evenInstance with doubleBuffer := some db' }, tr⟩ ∧
        ∀ k c0 c1, k < evenInstance.nPoints / 2 →
          [((1 : ℤ), (2 : ℤ)), (3, 4), (5, 6), (7, 8)][2 * k]? = some c0 →
          [((1 : ℤ), (2 : ℤ)), (3, 4), (5, 6), (7, 8)][2 * k + 1]? = some c1 →
          db'[4 * k]? = some c0.1 ∧ db'[4 * k + 1]? = some c0.2 ∧
          db'[4 * k + 2]? = some (-c1.1) ∧ db'[4 * k + 3]? = some (-c1.2) :=
  ⟨by decide, modulate_even_interleave evenInstance _ _ rfl rfl (by decide) (by decide)
    (by decide)⟩

/-- C3. Odd-`N` alternating sign: for every odd `N`, on an instance holding the samples `cb`
(at least `N` of them) and a real buffer of length at least `2 * N`, `Modulate()` returns 0 and
leaves, for every `i < N`, `out[2i] = s_i * Re(in[i])` and `out[2i+1] = s_i * Im(in[i])` with
`s_0 = +1`, `s_(i+1) = -s_i`. -/
theorem modulate_odd_alternating (self : BandPassModulator α) (cb : List (α × α))
    (db : List α) (hc : self.complexBuffer = some cb) (hd : self.doubleBuffer = some db)
    (hodd : self.nPoints % 2 = 1) (hcb : self.nPoints ≤ cb.length)
    (hdb : 2 * self.nPoints ≤ db.length) :
    ∃ db' tr, self.Modulate = .ok ⟨0, { self with doubleBuffer := some db' }, tr⟩ ∧
      ∀ i c, i < self.nPoints → cb[i]? = some c →
        db'[2 * i]? = some ((altSign i : α) * c.1) ∧
        db'[2 * i + 1]? = some ((altSign i : α) * c.2) := by
  obtain ⟨db', tr, h1, -, hlo, -⟩ := modulate_result self cb db hc hd hcb hdb
  refine ⟨db', tr, h1, ?_⟩
  intro i c hi h0
  have e0 : 2 * i / 2 = i := by omega
  have e1 : (2 * i + 1) / 2 = i := by omega
  have g0 := hlo (2 * i) c (by omega) (by rw [e0]; exact h0)
  have g1 := hlo (2 * i + 1) c (by omega) (by rw [e1]; exact h0)
  rw [e0, if_pos (by omega)] at g0
  rw [e1, if_neg (by omega)] at g1
  rw [altSign_mul, altSign_mul]
  exact ⟨g0, g1⟩

/-- Witness of C3: `N = 3`, samples `(1,1),(1,1),(1,1)` give `[1,1,-1,-1,1,1]`, and the pattern
of the theorem holds there. -/
theorem modulate_odd_alternating_witness :
    oddInstance.Modulate.map (fun o => (o.ret, o.self.doubleBuffer)) =
        .ok (0, some [1, 1, -1, -1, 1, 1]) ∧
      ∃ db' tr, oddInstance.Modulate =
          .ok ⟨0, { oddInstance with doubleBuffer := some db' }, tr⟩ ∧
        ∀ i c, i < oddInstance.nPoints → [((1 : ℤ), (1 : ℤ)), (1, 1), (1, 1)][i]? = some c →
          db'[2 * i]? = some ((altSign i : ℤ) * c.1) ∧
          db'[2 * i + 1]? = some ((altSign i : ℤ) * c.2) :=
  ⟨by decide, modulate_odd_alternating oddInstance _ _ rfl rfl (by decide) (by decide)
    (by decide)⟩

/-- C4 (amended). Demodulate at an offset: for every `N` (a `uint16_t`), every offset and every
real buffer `db` with `offset + 2N ≤ length(db)` and `offset + 2N ≤ 2^32`, `Demodulate(offset)`
returns 0 and reconstructs the samples from the `2N` reals starting at `offset`: for `N` even,
sample `2k = (db[offset+4k], db[offset+4k+1])` and
sample `2k+1 = (-db[offset+4k+2], -db[offset+4k+3])` for every `k < N/2`; for `N` odd,
sample `i = (s_i * db[offset+2i], s_i * db[offset+2i+1])` with `s_i` alternating from `+1`.
Consequently, if `db[offset .. offset+2N)` holds the modulation of `x`, the first `N` samples
of `complexBuffer` are `x`. -/
theorem demodulate_at_offset (self : BandPassModulator α) (cb : List (α × α)) (db : List α)
    (off : Nat) (hc : self.complexBuffer = some cb) (hd : self.doubleBuffer = some db)
    (hN : self.nPoints < 65536) (hcb : self.nPoints ≤ cb.length)
    (hdb : off + 2 * self.nPoints ≤ db.length) (hoff : off + 2 * self.nPoints ≤ 4294967296) :
    ∃ cb' tr, self.Demodulate off = .ok ⟨0, { self with complexBuffer := some cb' }, tr⟩ ∧
      (self.nPoints % 2 = 0 → ∀ k v0 v1 v2 v3, k < self.nPoints / 2 →
        db[off + 4 * k]? = some v0 → db[off + 4 * k + 1]? = some v1 →
        db[off + 4 * k + 2]? = some v2 → db[off + 4 * k + 3]? = some v3 →
        cb'[2 * k]? = some (v0, v1) ∧ cb'[2 * k + 1]? = some (-v2, -v3)) ∧
      (self.nPoints % 2 = 1 → ∀ i v0 v1, i < self.nPoints →
        db[off + 2 * i]? = some v0 → db[off + 2 * i + 1]? = some v1 →
        cb'[i]? = some ((altSign i : α) * v0, (altSign i : α) * v1)) ∧
      (∀ (x : List (α × α)) (dx m : List α) (tr0 : List Access),
        x.length = self.nPoints → 2 * self.nPoints ≤ dx.length →
        (⟨self.nPoints, some x, some dx, self.configured⟩ : BandPassModulator α).Modulate =
          .ok ⟨0, ⟨self.nPoints, some x, some m, self.configured⟩, tr0⟩ →
        (∀ t, t < 2 * self.nPoints → db[off + t]? = m[t]?) →
        ∀ i, i < self.nPoints → cb'[i]? = x[i]?) := by
  obtain ⟨cb', tr, h1, -, hlo, -⟩ := demodulate_result self cb db off hc hd hN hcb hdb hoff
  refine ⟨cb', tr, h1, ?_, ?_, ?_⟩
  · intro hpar k v0 v1 v2 v3 hk h0 h1 h2 h3
    have e0 : off + 2 * (2 * k) = off + 4 * k := by ring
    have e1 : off + 2 * (2 * k + 1) = off + 4 * k + 2 := by ring
    have g0 := hlo (2 * k) v0 v1 (by omega) (by rw [e0]; exact h0) (by rw [e0]; exact h1)
    have g1 := hlo (2 * k + 1) v2 v3 (by omega) (by rw [e1]; exact h2) (by rw [e1]; exact h3)
    have m0 : 2 * k % 2 = 0 := by omega
    have m1 : ¬ ((2 * k + 1) % 2 = 0) := by omega
    simp only [signed, m0, m1, if_true, if_false] at g0 g1
    exact ⟨g0, g1⟩
  · intro _ i v0 v1 hi h0 h1
    rw [altSign_mul, altSign_mul]
    exact hlo i v0 v1 hi h0 h1
  · intro x dx m tr0 hx hdx hmod hwin i hi
    obtain ⟨m', tr', hm', -, hmlo, -⟩ :=
      modulate_result (⟨self.nPoints, some x, some dx, self.configured⟩ : BandPassModulator α)
        x dx rfl rfl (by simp [hx]) hdx
    rw [hmod] at hm'
    have hmm : m = m' := by
      injection hm' with h
      injection h with _ h _
      injection h with _ _ h _
      injection h
    subst hmm
    have hxi : x[i]? = some (x[i]) := List.getElem?_eq_getElem (by omega)
    have e0 : 2 * i / 2 = i := by omega
    have e1 : (2 * i + 1) / 2 = i := by omega
    have g0 := hmlo (2 * i) (x[i]) (by simp only; omega)
      ((congrArg (fun n => x[n]?) e0).trans hxi)
    have g1 := hmlo (2 * i + 1) (x[i]) (by simp only; omega)
      ((congrArg (fun n => x[n]?) e1).trans hxi)
    have m0 : 2 * i % 2 = 0 := by omega
    have m1 : ¬ ((2 * i + 1) % 2 = 0) := by omega
    simp only [e0, m0, if_true] at g0
    simp only [e1, m1, if_false] at g1
    have w0 := hwin (2 * i) (by omega)
    have w1 := hwin (2 * i + 1) (by omega)
    rw [g0] at w0
    rw [g1] at w1
    have := hlo i _ _ hi w0 (by rw [← Nat.add_assoc] at w1; exact w1)
    rw [this, hxi, signed_signed, signed_signed]

/-- Witness of C4 (amended): `N = 2`, the symbol `(1,2),(3,4)` modulated at offset 1. -/
theorem demodulate_at_offset_witness :
    (offsetInstance.Demodulate 1).map (fun o => (o.ret, o.self.complexBuffer)) =
        .ok (0, some [(1, 2), (3, 4)]) ∧
    ∃ cb' tr, offsetInstance.Demodulate 1 =
        .ok ⟨0, { offsetInstance with complexBuffer := some cb' }, tr⟩ ∧
      (offsetInstance.nPoints % 2 = 0 → ∀ k v0 v1 v2 v3, k < offsetInstance.nPoints / 2 →
        [(9 : ℤ), 1, 2, -3, -4, 9][1 + 4 * k]? = some v0 →
        [(9 : ℤ), 1, 2, -3, -4, 9][1 + 4 * k + 1]? = some v1 →
        [(9 : ℤ), 1, 2, -3, -4, 9][1 + 4 * k + 2]? = some v2 →
        [(9 : ℤ), 1, 2, -3, -4, 9][1 + 4 * k + 3]? = some v3 →
        cb'[2 * k]? = some (v0, v1) ∧ cb'[2 * k + 1]? = some (-v2, -v3)) ∧
      (offsetInstance.nPoints % 2 = 1 → ∀ i v0 v1, i < offsetInstance.nPoints →
        [(9 : ℤ), 1, 2, -3, -4, 9][1 + 2 * i]? = some v0 →
        [(9 : ℤ), 1, 2, -3, -4, 9][1 + 2 * i + 1]? = some v1 →
        cb'[i]? = some ((altSign i : ℤ) * v0, (altSign i : ℤ) * v1)) ∧
      (∀ (x : List (ℤ × ℤ)) (dx m : List ℤ) (tr0 : List Access),
        x.length = offsetInstance.nPoints → 2 * offsetInstance.nPoints ≤ dx.length →
        (⟨offsetInstance.nPoints, some x, some dx, offsetInstance.configured⟩ :
            BandPassModulator ℤ).Modulate =
          .ok ⟨0, ⟨offsetInstance.nPoints, some x, some m, offsetInstance.configured⟩, tr0⟩ →
        (∀ t, t < 2 * offsetInstance.nPoints → [(9 : ℤ), 1, 2, -3, -4, 9][1 + t]? = m[t]?) →
        ∀ i, i < offsetInstance.nPoints → cb'[i]? = x[i]?) :=
  ⟨by decide, demodulate_at_offset offsetInstance [(0, 0), (0, 0)] [9, 1, 2, -3, -4, 9] 1
    rfl rfl (by decide) (by decide) (by decide) (by decide)⟩

/-- C4 as stated fails when the window crosses `2^32`: with `N = 2`, `offset = 2^32 - 2` and
a real buffer of `2^32 + 2` elements (so `offset + 2N ≤ length`), the cursor `j`, a `uint32_t`,
wraps to 0 after two reads, and sample 1 is `(-db[0], -db[1]) = (0, 0)`, not
`(-db[offset+2], -db[offset+3]) = (-1, -1)`. -/
theorem demodulate_at_offset_counterexample :
    4294967294 + 2 * wrapInstance.nPoints ≤ wrapBuffer.length ∧
    wrapBuffer[4294967294 + 4 * 0 + 2]? = some 1 ∧
    wrapBuffer[4294967294 + 4 * 0 + 3]? = some 1 ∧
    ∃ out cb', wrapInstance.Demodulate 4294967294 = .ok out ∧
      out.self.complexBuffer = some cb' ∧ cb'[2 * 0 + 1]? = some (0, 0) ∧
      cb'[2 * 0 + 1]? ≠ some (-1, -1) := by
  refine ⟨?_, ?_, ?_, _, _, demodulate_wrap wrapBuffer (0, 0) (0, 0) 1 0 0 0 0
    (replicate_append_low _ _ _ _ (by norm_num)) (replicate_append_low _ _ _ _ (by norm_num))
    (replicate_append_low _ _ _ _ (by norm_num)) (replicate_append_low _ _ _ _ (by norm_num)),
    rfl, ?_, ?_⟩
  · show 4294967294 + 2 * 2 ≤ (List.replicate 4294967296 (0 : ℤ) ++ [1, 1]).length
    rw [replicate_append_length]
    decide
  · exact replicate_append_high 4294967296 0 0 [1, 1]
  · exact replicate_append_high 4294967296 1 0 [1, 1]
  · decide
  · decide

/-- C5. The in-place variant agrees with the copying variant: for every `N` and every complex
vector `x` of length `N`, if the real buffer `p` (of length `2N`, or longer) holds the raw pairs
`p[2i] = Re(x[i])`, `p[2i+1] = Im(x[i])`, then `Modulate(p)` returns 0 and leaves `p` equal,
index for index over `[0, 2N)`, to the `doubleBuffer` that `Modulate()` produces from
`complexBuffer = x`; both buffers keep their lengths, so for buffers of length exactly `2N` the
two are the same list.  For `N` even, `Modulate(p)` negates the reals at the indices below `2N`
congruent to 2 and 3 mod 4 and leaves all others as they were. -/
theorem modulateDouble_agrees (self : BandPassModulator α) (x : List (α × α))
    (p db0 : List α) (hc : self.complexBuffer = some x) (hd : self.doubleBuffer = some db0)
    (hx : x.length = self.nPoints) (hp : 2 * self.nPoints ≤ p.length)
    (hdb0 : 2 * self.nPoints ≤ db0.length)
    (hraw : ∀ i c, x[i]? = some c → p[2 * i]? = some c.1 ∧ p[2 * i + 1]? = some c.2) :
    ∃ (p' d' : List α) (tr1 tr2 : List Access),
      self.ModulateDouble (some p) = .ok (0, some p', tr1) ∧
      self.Modulate = .ok ⟨0, { self with doubleBuffer := some d' }, tr2⟩ ∧
      p'.length = p.length ∧ d'.length = db0.length ∧
      (∀ t : Nat, t < 2 * self.nPoints → p'[t]? = d'[t]?) ∧
      (p.length = 2 * self.nPoints → db0.length = 2 * self.nPoints → p' = d') ∧
      (self.nPoints % 2 = 0 → ∀ t : Nat,
        p'[t]? = if t < 2 * self.nPoints ∧ (t % 4 = 2 ∨ t % 4 = 3) then
          (p[t]?).map (fun v => -v) else p[t]?) := by
  obtain ⟨p', tr1, h1, hlen1, hlo1, hhi1⟩ := modulateDouble_result self p hp
  obtain ⟨d', tr2, h2, hlen2, hlo2, -⟩ := modulate_result self x db0 hc hd (by omega) hdb0
  have hpt : ∀ t : Nat, t < 2 * self.nPoints → p'[t]? = d'[t]? := by
    intro t ht
    have hxi : x[t / 2]? = some (x[t / 2]) := List.getElem?_eq_getElem (by omega)
    obtain ⟨r0, r1⟩ := hraw (t / 2) _ hxi
    rw [hlo2 t _ ht hxi]
    rcases Nat.mod_two_eq_zero_or_one t with hm | hm
    · have e : 2 * (t / 2) = t := by omega
      rw [e] at r0
      rw [hlo1 t _ ht r0, if_pos hm]
    · have e : 2 * (t / 2) + 1 = t := by omega
      rw [e] at r1
      rw [hlo1 t _ ht r1, if_neg (by omega)]
  refine ⟨p', d', tr1, tr2, h1, h2, hlen1, hlen2, hpt, ?_, ?_⟩
  · intro hpl hdl
    apply List.ext_getElem?
    intro t
    by_cases ht : t < 2 * self.nPoints
    · exact hpt t ht
    · rw [List.getElem?_eq_none (by omega), List.getElem?_eq_none (by omega)]
  · intro hpar t
    by_cases ht : t < 2 * self.nPoints
    · have hpt : p[t]? = some (p[t]) := List.getElem?_eq_getElem (by omega)
      rw [hlo1 t _ ht hpt, hpt]
      by_cases h4 : t % 4 = 2 ∨ t % 4 = 3
      · rw [if_pos ⟨ht, h4⟩]
        simp only [signed, Option.map_some']
        rw [if_neg (by omega)]
      · rw [if_neg (fun h => h4 h.2)]
        simp only [signed]
        rw [if_pos (by omega)]
    · rw [hhi1 t (by omega), if_neg (fun h => ht h.1)]

/-- Witness of C5: `N = 4`, samples `(1,2),(3,4),(5,6),(7,8)`, `p = [1,2,3,4,5,6,7,8]`; both
variants give `[1,2,-3,-4,5,6,-7,-8]`. -/
theorem modulateDouble_agrees_witness :
    (evenInstance.ModulateDouble (some [1, 2, 3, 4, 5, 6, 7, 8])).map (fun r => (r.1, r.2.1)) =
        .ok (0, some [1, 2, -3, -4, 5, 6, -7, -8]) ∧
    ∃ (p' d' : List ℤ) (tr1 tr2 : List Access),
      evenInstance.ModulateDouble (some [1, 2, 3, 4, 5, 6, 7, 8]) = .ok (0, some p', tr1) ∧
      evenInstance.Modulate = .ok ⟨0, { evenInstance with doubleBuffer := some d' }, tr2⟩ ∧
      p'.length = [(1 : ℤ), 2, 3, 4, 5, 6, 7, 8].length ∧
      d'.length = [(0 : ℤ), 0, 0, 0, 0, 0, 0, 0].length ∧
      (∀ t : Nat, t < 2 * evenInstance.nPoints → p'[t]? = d'[t]?) ∧
      ([(1 : ℤ), 2, 3, 4, 5, 6, 7, 8].length = 2 * evenInstance.nPoints →
        [(0 : ℤ), 0, 0, 0, 0, 0, 0, 0].length = 2 * evenInstance.nPoints → p' = d') ∧
      (evenInstance.nPoints % 2 = 0 → ∀ t : Nat,
        p'[t]? = if t < 2 * evenInstance.nPoints ∧ (t % 4 = 2 ∨ t % 4 = 3) then
          ([(1 : ℤ), 2, 3, 4, 5, 6, 7, 8][t]?).map (fun v => -v)
        else [(1 : ℤ), 2, 3, 4, 5, 6, 7, 8][t]?) :=
  ⟨by decide, modulateDouble_agrees evenInstance [(1, 2), (3, 4), (5, 6), (7, 8)]
    [1, 2, 3, 4, 5, 6, 7, 8] [0, 0, 0, 0, 0, 0, 0, 0] rfl rfl (by decide) (by decide)
    (by decide) (by
      intro i c hi
      have hlt : i < 4 := by
        by_contra hge
        rw [List.getElem?_eq_none (by simp; omega)] at hi
        cases hi
      have hcases : i = 0 ∨ i = 1 ∨ i = 2 ∨ i = 3 := by omega
      rcases hcases with h | h | h | h <;> subst h <;> cases hi <;> decide)⟩

/-- C6 (amended). No configuration gating: on an instance torn down with `Close()`, each of
`Modulate()`, `Modulate(double*)` (for every argument) and `Demodulate(offset)` (for every
offset) returns 0, the success code, makes no buffer access and leaves the object as it is;
the `configured` flag is not consulted. -/
theorem closed_calls_return_zero (self : BandPassModulator α) (p : Option (List α))
    (off : Nat) :
    self.Close.self.Modulate = .ok ⟨0, self.Close.self, []⟩ ∧
    self.Close.self.ModulateDouble p = .ok (0, p, []) ∧
    self.Close.self.Demodulate off = .ok ⟨0, self.Close.self, []⟩ := by
  refine ⟨?_, ?_, ?_⟩
  · simp [Close, Modulate, forLoop, finish, mem]
  · simp [Close, ModulateDouble, forLoop]
  · simp [Close, Demodulate, forLoop, finish, mem]

/-- C6 as stated fails: after `Close()` the three calls return the success code 0, not an
error. -/
theorem closed_calls_counterexample :
    evenInstance.Close.self.configured = 0 ∧
    (evenInstance.Close.self.Modulate).map (fun o => o.ret) = .ok 0 ∧
    (evenInstance.Close.self.ModulateDouble (some [1, 2])).map (fun r => r.1) = .ok 0 ∧
    (evenInstance.Close.self.Demodulate 0).map (fun o => o.ret) = .ok 0 ∧
    ¬ ∃ o, evenInstance.Close.self.Modulate = .ok o ∧ o.ret ≠ 0 := by
  refine ⟨by decide, by decide, by decide, by decide, ?_⟩
  rintro ⟨o, ho, hne⟩
  have h : evenInstance.Close.self.Modulate = .ok ⟨0, evenInstance.Close.self, []⟩ := by
    decide
  rw [h] at ho
  cases ho
  exact hne rfl

/-- C7 (amended). No offset bounds check: the only code `Demodulate` ever returns is 0, and
for every `N` with `1 ≤ N ≤ 65535` (at least `N` complex samples), every real buffer of length
`L` and every offset with `offset + 2N > L` and `offset + 2N ≤ 2^32`, the execution reads
`doubleBuffer` out of bounds, first at index `max offset L`: no error is reported and the
behaviour is undefined. -/
theorem demodulate_out_of_range (self : BandPassModulator α) (cb : List (α × α))
    (db : List α) (off : Nat) (hc : self.complexBuffer = some cb)
    (hd : self.doubleBuffer = some db) (hN : self.nPoints < 65536) (hpos : 0 < self.nPoints)
    (hcb : self.nPoints ≤ cb.length) (hoff : off + 2 * self.nPoints ≤ 4294967296)
    (hout : db.length < off + 2 * self.nPoints) :
    self.Demodulate off = .error (.outOfBounds (.readDouble (max off db.length))) ∧
    ∀ (s : BandPassModulator α) (o : Nat) (out : Outcome α),
      s.Demodulate o = .ok out → out.ret = 0 :=
  ⟨demodulate_fault self cb db off hc hd hN hpos hcb hoff hout,
   fun s o out h => demodulate_ret s o out h⟩

/-- Witness of C7 (amended): `N = 2`, a real buffer of 4 elements, offset 2: the third read,
at index 4, is out of bounds. -/
theorem demodulate_out_of_range_witness :
    shortInstance.Demodulate 2 = .error (.outOfBounds (.readDouble (max 2 4))) ∧
    ∀ (s : BandPassModulator ℤ) (o : Nat) (out : Outcome ℤ),
      s.Demodulate o = .ok out → out.ret = 0 :=
  demodulate_out_of_range shortInstance [(0, 0), (0, 0)] [1, 2, 3, 4] 2 rfl rfl (by decide)
    (by decide) (by decide) (by decide) (by decide)

/-- C7 as stated fails: with `N = 2`, `L = 4`, `offset = 2` (so `offset + 2N > L`),
`Demodulate(2)` does not return an error code; it reads `doubleBuffer[4]`, out of bounds. -/
theorem demodulate_out_of_range_counterexample :
    [(1 : ℤ), 2, 3, 4].length < 2 + 2 * shortInstance.nPoints ∧
    shortInstance.Demodulate 2 = .error (.outOfBounds (.readDouble 4)) ∧
    ¬ ∃ out, shortInstance.Demodulate 2 = .ok out ∧ out.ret ≠ 0 := by
  have h : shortInstance.Demodulate 2 = .error (.outOfBounds (.readDouble 4)) := by decide
  refine ⟨by decide, h, ?_⟩
  rintro ⟨out, hout, -⟩
  rw [h] at hout
  cases hout

/-- C13. Exactly `2N` reals, independent of parity: for every `N` (even or odd), on an instance
holding at least `N` samples and a `doubleBuffer` of length at least `2N`, `Modulate()` returns
0, writes every index in `[0, 2N)` of `doubleBuffer` and no index `≥ 2N` (the reals from `2N` on
keep their previous values, the length is unchanged), and writes no sample of `complexBuffer`,
which is left as it was; likewise `Modulate(double*)` on a buffer of length at least `2N`
changes no index `≥ 2N`. -/
theorem modulate_writes_exactly (self : BandPassModulator α) (cb : List (α × α))
    (db : List α) (hc : self.complexBuffer = some cb) (hd : self.doubleBuffer = some db)
    (hcb : self.nPoints ≤ cb.length) (hdb : 2 * self.nPoints ≤ db.length) :
    (∃ out db', self.Modulate = .ok out ∧ out.ret = 0 ∧
      out.self.doubleBuffer = some db' ∧ db'.length = db.length ∧
      (∀ j, Access.writeDouble j ∈ out.trace ↔ j < 2 * self.nPoints) ∧
      (∀ t, 2 * self.nPoints ≤ t → db'[t]? = db[t]?) ∧
      (∀ i p, Access.writeComplex i p ∉ out.trace) ∧
      out.self.complexBuffer = some cb ∧ out.self.nPoints = self.nPoints) ∧
    ∀ p : List α, 2 * self.nPoints ≤ p.length →
      ∃ p' tr, self.ModulateDouble (some p) = .ok (0, some p', tr) ∧
        p'.length = p.length ∧ ∀ t, 2 * self.nPoints ≤ t → p'[t]? = p[t]? := by
  obtain ⟨db', hrun, -, d, hd', hlen, -, hhi⟩ := modulate_full self cb db hc hd hcb hdb
  cases hd'
  refine ⟨⟨_, db', hrun, rfl, rfl, hlen, ?_, hhi, ?_, hc, rfl⟩, ?_⟩
  · intro j
    exact mem_modulateTrace_write _ j
  · intro i p hmem
    rcases mem_modulateTrace_kind _ _ hmem with ⟨_, _, h⟩ | ⟨_, h⟩ <;> cases h
  · intro p hp
    obtain ⟨p', tr, h1, hl, -, hhi1⟩ := modulateDouble_result self p hp
    exact ⟨p', tr, h1, hl, hhi1⟩

/-- Witness of C13: `N = 3` with a real buffer of 8 nines; `Modulate()` leaves
`[1,2,-3,-4,5,6,9,9]`, and `Modulate(double*)` on `[1,2,3,4,5,6,7,8]` leaves the last two
reals. -/
theorem modulate_writes_exactly_witness :
    (paddedInstance.Modulate.map (fun o => (o.ret, o.self.doubleBuffer)) =
        .ok (0, some [1, 2, -3, -4, 5, 6, 9, 9]) ∧
     (paddedInstance.ModulateDouble (some [1, 2, 3, 4, 5, 6, 7, 8])).map
        (fun r => (r.1, r.2.1)) = .ok (0, some [1, 2, -3, -4, 5, 6, 7, 8])) ∧
    ((∃ out db', paddedInstance.Modulate = .ok out ∧ out.ret = 0 ∧
      out.self.doubleBuffer = some db' ∧
      db'.length = ([9, 9, 9, 9, 9, 9, 9, 9] : List ℤ).length ∧
      (∀ j, Access.writeDouble j ∈ out.trace ↔ j < 2 * paddedInstance.nPoints) ∧
      (∀ t, 2 * paddedInstance.nPoints ≤ t →
        db'[t]? = ([9, 9, 9, 9, 9, 9, 9, 9] : List ℤ)[t]?) ∧
      (∀ i p, Access.writeComplex i p ∉ out.trace) ∧
      out.self.complexBuffer = some [(1, 2), (3, 4), (5, 6)] ∧
      out.self.nPoints = paddedInstance.nPoints) ∧
    ∀ p : List ℤ, 2 * paddedInstance.nPoints ≤ p.length →
      ∃ p' tr, paddedInstance.ModulateDouble (some p) = .ok (0, some p', tr) ∧
        p'.length = p.length ∧ ∀ t, 2 * paddedInstance.nPoints ≤ t → p'[t]? = p[t]?) :=
  ⟨by decide, modulate_writes_exactly paddedInstance [(1, 2), (3, 4), (5, 6)]
    [9, 9, 9, 9, 9, 9, 9, 9] rfl rfl (by decide) (by decide)⟩

/-- C16. No null-buffer access after teardown: `Close()` sets both buffer pointers to null,
`nPoints` to 0 and `configured` to 0, and after it every call to `Modulate()`,
`Modulate(double*)` (for every argument) and `Demodulate(offset)` (for every offset) returns
with an empty access trace: it performs no read and no write of `complexBuffer`,
`doubleBuffer` or the argument buffer. -/
theorem closed_calls_no_access (self : BandPassModulator α) (p : Option (List α))
    (off : Nat) :
    (self.Close.self.complexBuffer = none ∧ self.Close.self.doubleBuffer = none ∧
      self.Close.self.nPoints = 0 ∧ self.Close.self.configured = 0) ∧
    (∃ o, self.Close.self.Modulate = .ok o ∧ o.trace = []) ∧
    (∃ r, self.Close.self.ModulateDouble p = .ok r ∧ r.2.2 = []) ∧
    (∃ o, self.Close.self.Demodulate off = .ok o ∧ o.trace = []) := by
  refine ⟨⟨rfl, rfl, rfl, rfl⟩, ⟨⟨0, self.Close.self, []⟩, ?_, rfl⟩, ⟨(0, p, []), ?_, rfl⟩,
    ⟨⟨0, self.Close.self, []⟩, ?_, rfl⟩⟩
  · simp [Close, Modulate, forLoop, finish, mem]
  · simp [Close, ModulateDouble, forLoop]
  · simp [Close, Demodulate, forLoop, finish, mem]

/-- C17. The even and odd branches compute the same function: for every `N` of either parity,
on an instance holding at least `N` samples and a real buffer of length at least `2N`, the
output of `Modulate()` satisfies `out[2i] = (-1)^i * Re(in[i])` and
`out[2i+1] = (-1)^i * Im(in[i])` for every `i < N`; the odd branch (the per-sample loop with the
alternating multiplier) run on the same instance returns exactly what `Modulate()` returns, and
for even `N` so does the even branch (the pairwise loop): the parity test does not change the
result. -/
theorem modulate_branches_agree (self : BandPassModulator α) (cb : List (α × α))
    (db : List α) (hc : self.complexBuffer = some cb) (hd : self.doubleBuffer = some db)
    (hcb : self.nPoints ≤ cb.length) (hdb : 2 * self.nPoints ≤ db.length) :
    ∃ out db', self.Modulate = .ok out ∧ out.self.doubleBuffer = some db' ∧
      (∀ i c, i < self.nPoints → cb[i]? = some c →
        db'[2 * i]? = some ((-1 : α) ^ i * c.1) ∧
        db'[2 * i + 1]? = some ((-1 : α) ^ i * c.2)) ∧
      self.ModulateOddBranch = .ok out ∧
      (self.nPoints % 2 = 0 → self.ModulateEvenBranch = .ok out) := by
  obtain ⟨db', hrun, hI⟩ := modulate_full self cb db hc hd hcb hdb
  obtain ⟨d1, hrun1, hI1⟩ := modulateOddBranch_full self cb db hc hd hcb hdb
  have hlo := hI.2
  obtain ⟨d, hd', -, hlo, -⟩ := hlo
  cases hd'
  have e1 : some db' = some d1 :=
    modInv_unique cb db _ _ _ (by omega) hI hI1
  cases e1
  refine ⟨_, db', hrun, rfl, ?_, hrun1, ?_⟩
  · intro i c hi hci
    have e0 : 2 * i / 2 = i := by omega
    have e1 : (2 * i + 1) / 2 = i := by omega
    have g0 := hlo (2 * i) c (by omega) ((congrArg (fun n => cb[n]?) e0).trans hci)
    have g1 := hlo (2 * i + 1) c (by omega) ((congrArg (fun n => cb[n]?) e1).trans hci)
    have m0 : 2 * i % 2 = 0 := by omega
    have m1 : ¬ ((2 * i + 1) % 2 = 0) := by omega
    simp only [e0, m0, if_true] at g0
    simp only [e1, m1, if_false] at g1
    rw [← signed_eq_pow, ← signed_eq_pow]
    exact ⟨g0, g1⟩
  · intro hpar
    obtain ⟨d2, hrun2, hI2⟩ := modulateEvenBranch_full self cb db hc hd hpar hcb hdb
    have e2 : some db' = some d2 :=
      modInv_unique cb db _ _ _ (by omega) hI hI2
    cases e2
    exact hrun2

/-- Witness of C17: `N = 4`; the pairwise loop, the per-sample loop and `Modulate()` all leave
`[1,2,-3,-4,5,6,-7,-8]`. -/
theorem modulate_branches_agree_witness :
    (evenInstance.ModulateOddBranch = evenInstance.Modulate ∧
     evenInstance.ModulateEvenBranch = evenInstance.Modulate ∧
     evenInstance.ModulateOddBranch.map (fun o => o.self.doubleBuffer) =
       .ok (some [1, 2, -3, -4, 5, 6, -7, -8])) ∧
    ∃ out db', evenInstance.Modulate = .ok out ∧ out.self.doubleBuffer = some db' ∧
      (∀ i c, i < evenInstance.nPoints →
        ([(1, 2), (3, 4), (5, 6), (7, 8)] : List (ℤ × ℤ))[i]? = some c →
        db'[2 * i]? = some ((-1 : ℤ) ^ i * c.1) ∧
        db'[2 * i + 1]? = some ((-1 : ℤ) ^ i * c.2)) ∧
      evenInstance.ModulateOddBranch = .ok out ∧
      (evenInstance.nPoints % 2 = 0 → evenInstance.ModulateEvenBranch = .ok out) :=
  ⟨by decide, modulate_branches_agree evenInstance [(1, 2), (3, 4), (5, 6), (7, 8)]
    [0, 0, 0, 0, 0, 0, 0, 0] rfl rfl (by decide) (by decide)⟩

/-- C18. The in-place `Modulate(double*)` is an involution: for every `N` (even and odd) and
every real buffer `p` of length at least `2N`, `Modulate(p)` returns 0 and a second
`Modulate(p)` returns 0 and restores `p` to its original contents. -/
theorem modulateDouble_involution (self : BandPassModulator α) (p : List α)
    (hp : 2 * self.nPoints ≤ p.length) :
    ∃ p' tr1 tr2, self.ModulateDouble (some p) = .ok (0, some p', tr1) ∧
      self.ModulateDouble (some p') = .ok (0, some p, tr2) := by
  obtain ⟨p', tr1, h1, hl1, hlo1, hhi1⟩ := modulateDouble_result self p hp
  obtain ⟨p'', tr2, h2, hl2, hlo2, hhi2⟩ := modulateDouble_result self p' (by omega)
  have e : p'' = p := by
    apply List.ext_getElem?
    intro t
    by_cases ht : t < 2 * self.nPoints
    · have hpt : p[t]? = some (p[t]) := List.getElem?_eq_getElem (by omega)
      rw [hlo2 t _ ht (hlo1 t _ ht hpt), signed_signed, hpt]
    · rw [hhi2 t (by omega), hhi1 t (by omega)]
  rw [e] at h2
  exact ⟨p', tr1, tr2, h1, h2⟩

/-- Witness of C18: `N = 3` on `[1,2,3,4,5,6,7,8]`: one call gives `[1,2,-3,-4,5,6,7,8]`, the
second gives the original back. -/
theorem modulateDouble_involution_witness :
    ((paddedInstance.ModulateDouble (some [1, 2, 3, 4, 5, 6, 7, 8])).map
        (fun r => (r.1, r.2.1)) = .ok (0, some [1, 2, -3, -4, 5, 6, 7, 8]) ∧
     (paddedInstance.ModulateDouble (some [1, 2, -3, -4, 5, 6, 7, 8])).map
        (fun r => (r.1, r.2.1)) = .ok (0, some [1, 2, 3, 4, 5, 6, 7, 8])) ∧
    ∃ p' tr1 tr2, paddedInstance.ModulateDouble (some [1, 2, 3, 4, 5, 6, 7, 8]) =
        .ok (0, some p', tr1) ∧
      paddedInstance.ModulateDouble (some p') = .ok (0, some [1, 2, 3, 4, 5, 6, 7, 8], tr2) :=
  ⟨by decide, modulateDouble_involution paddedInstance [1, 2, 3, 4, 5, 6, 7, 8] (by decide)⟩

/-- C14. The sign multiplier never persists across symbols.  On a configured instance (`N` a
`uint16_t`, at least `N` samples and `2N` reals bound), after every sequence `ops` of
`Modulate()` / `Demodulate` calls that returned, `N` is unchanged and the next call depends
only on its own input: for every symbol `x` put in `complexBuffer`, `Modulate()` returns with
`out[2i] = (-1)^i * Re(x[i])`, `out[2i+1] = (-1)^i * Im(x[i])` for `i < N`, so the first sample
is emitted with sign `+1` (`out[0] = Re(x[0])`, `out[1] = Im(x[0])`), and a second `Modulate()`
on the same `complexBuffer` returns the same outcome, with the same `doubleBuffer`; for every
real buffer contents `r` and offset with the window inside `r` and below `2^32`,
`Demodulate(offset)` returns with sample
`i = ((-1)^i * r[offset+2i], (-1)^i * r[offset+2i+1])` for `i < N`.  None of these values
mentions `ops` or the buffers the earlier calls left. -/
theorem calls_independent_of_history (init s : BandPassModulator α) (ops : List Op)
    (cb0 : List (α × α)) (db0 : List α)
    (hc : init.complexBuffer = some cb0) (hd : init.doubleBuffer = some db0)
    (hN : init.nPoints < 65536) (hcb : init.nPoints ≤ cb0.length)
    (hdb : 2 * init.nPoints ≤ db0.length) (hrun : init.runOps ops = .ok s) :
    s.nPoints = init.nPoints ∧
    (∀ x : List (α × α), x.length = cb0.length →
      ∃ o d, ({ s with complexBuffer := some x } : BandPassModulator α).Modulate = .ok o ∧
        o.self.doubleBuffer = some d ∧
        (∀ i c, i < init.nPoints → x[i]? = some c →
          d[2 * i]? = some ((-1 : α) ^ i * c.1) ∧ d[2 * i + 1]? = some ((-1 : α) ^ i * c.2)) ∧
        (0 < init.nPoints → ∀ c, x[0]? = some c → d[0]? = some c.1 ∧ d[1]? = some c.2) ∧
        o.self.Modulate = .ok o) ∧
    (∀ (r : List α) (off : Nat), r.length = db0.length →
      off + 2 * init.nPoints ≤ r.length → off + 2 * init.nPoints ≤ 4294967296 →
      ∃ o e, ({ s with doubleBuffer := some r } : BandPassModulator α).Demodulate off = .ok o ∧
        o.self.complexBuffer = some e ∧
        ∀ i v0 v1, i < init.nPoints → r[off + 2 * i]? = some v0 →
          r[off + 2 * i + 1]? = some v1 →
          e[i]? = some ((-1 : α) ^ i * v0, (-1 : α) ^ i * v1)) := by
  obtain ⟨hn, ⟨cb, hscb, hlc⟩, db, hsdb, hld⟩ :=
    runOps_shape init.nPoints cb0.length db0.length hN ops init s
      ⟨rfl, ⟨cb0, hc, rfl⟩, db0, hd, rfl⟩ hrun
  obtain ⟨N, scb, sdb, cfg⟩ := s
  simp only at hn hscb hsdb
  subst hscb hsdb
  rw [← hn] at hN hcb hdb ⊢
  clear hn hrun hc hd
  refine ⟨rfl, ?_, ?_⟩
  · intro x hx
    obtain ⟨d1, hrun1, hI1⟩ :=
      modulate_full (⟨N, some x, some db, cfg⟩ : BandPassModulator α) x db rfl rfl
        (by simp only; omega) (by simp only; omega)
    obtain ⟨d3, hrun3, hI3⟩ :=
      modulate_full (⟨N, some x, some d1, cfg⟩ : BandPassModulator α) x d1 rfl rfl
        (by simp only; omega) (by
          obtain ⟨-, d, hdd, hl, -, -⟩ := hI1
          cases hdd
          simp only; omega)
    obtain ⟨-, d, hd1, hl1, hlo1, -⟩ := hI1
    cases hd1
    have hform : ∀ i c, i < N → x[i]? = some c →
        d1[2 * i]? = some ((-1 : α) ^ i * c.1) ∧
        d1[2 * i + 1]? = some ((-1 : α) ^ i * c.2) := by
      intro i c hi hci
      have e0 : 2 * i / 2 = i := by omega
      have e1 : (2 * i + 1) / 2 = i := by omega
      have g0 := hlo1 (2 * i) c (by simp only; omega) ((congrArg (fun n => x[n]?) e0).trans hci)
      have g1 := hlo1 (2 * i + 1) c (by simp only; omega)
        ((congrArg (fun n => x[n]?) e1).trans hci)
      have m0 : 2 * i % 2 = 0 := by omega
      have m1 : ¬ ((2 * i + 1) % 2 = 0) := by omega
      simp only [e0, m0, if_true] at g0
      simp only [e1, m1, if_false] at g1
      rw [← signed_eq_pow, ← signed_eq_pow]
      exact ⟨g0, g1⟩
    refine ⟨⟨0, ⟨N, some x, some d1, cfg⟩, modulateTrace N⟩, d1, hrun1, rfl, hform, ?_, ?_⟩
    · intro hpos c hc0
      have := hform 0 c hpos hc0
      simpa using this
    · have hd3 : d3 = d1 := by
        obtain ⟨-, d, hdd, hl3, hlo3, hhi3⟩ := hI3
        cases hdd
        apply List.ext_getElem?
        intro t
        by_cases ht : t < 2 * N
        · have hxt : x[t / 2]? = some (x[t / 2]) := List.getElem?_eq_getElem (by omega)
          rw [hlo3 t _ ht hxt, hlo1 t _ ht hxt]
        · exact hhi3 t (by simp only at ht ⊢; omega)
      rw [hd3] at hrun3
      exact hrun3
  · intro r off hr hwin hoff
    obtain ⟨e1, hrun1, -, e, he1, -, hlo1, -⟩ :=
      demodulate_full (⟨N, some cb, some r, cfg⟩ : BandPassModulator α) cb r off rfl rfl hN
        (by simp only; omega) hwin hoff
    cases he1
    refine ⟨⟨0, ⟨N, some e1, some r, cfg⟩, demodulateTrace off N⟩, e1, hrun1, rfl, ?_⟩
    intro i v0 v1 hi h0 h1
    rw [← signed_eq_pow, ← signed_eq_pow]
    exact hlo1 i v0 v1 hi h0 h1

/-- Witness of C14: `N = 3`; after `Modulate(); Demodulate(0); Modulate(); Demodulate(2)` the
object holds the samples `(-3,-4),(-5,-6),(9,9)` and the reals `[1,2,-3,-4,5,6,9,9]`, and the
next calls depend on their own input only. -/
theorem calls_independent_of_history_witness :
    paddedInstance.runOps [.modulate, .demodulate 0, .modulate, .demodulate 2] =
      .ok ⟨3, some [(-3, -4), (-5, -6), (9, 9)], some [1, 2, -3, -4, 5, 6, 9, 9], 1⟩ ∧
    ((⟨3, some [(-3, -4), (-5, -6), (9, 9)], some [1, 2, -3, -4, 5, 6, 9, 9], 1⟩ :
        BandPassModulator ℤ).nPoints = paddedInstance.nPoints ∧
    (∀ x : List (ℤ × ℤ), x.length = ([(1, 2), (3, 4), (5, 6)] : List (ℤ × ℤ)).length →
      ∃ o d, ({ (⟨3, some [(-3, -4), (-5, -6), (9, 9)], some [1, 2, -3, -4, 5, 6, 9, 9], 1⟩ :
          BandPassModulator ℤ) with complexBuffer := some x } :
            BandPassModulator ℤ).Modulate = .ok o ∧
        o.self.doubleBuffer = some d ∧
        (∀ i c, i < paddedInstance.nPoints → x[i]? = some c →
          d[2 * i]? = some ((-1 : ℤ) ^ i * c.1) ∧ d[2 * i + 1]? = some ((-1 : ℤ) ^ i * c.2)) ∧
        (0 < paddedInstance.nPoints → ∀ c, x[0]? = some c →
          d[0]? = some c.1 ∧ d[1]? = some c.2) ∧
        o.self.Modulate = .ok o) ∧
    (∀ (r : List ℤ) (off : Nat), r.length = ([9, 9, 9, 9, 9, 9, 9, 9] : List ℤ).length →
      off + 2 * paddedInstance.nPoints ≤ r.length →
      off + 2 * paddedInstance.nPoints ≤ 4294967296 →
      ∃ o e, ({ (⟨3, some [(-3, -4), (-5, -6), (9, 9)], some [1, 2, -3, -4, 5, 6, 9, 9], 1⟩ :
          BandPassModulator ℤ) with doubleBuffer := some r } :
            BandPassModulator ℤ).Demodulate off = .ok o ∧
        o.self.complexBuffer = some e ∧
        ∀ i v0 v1, i < paddedInstance.nPoints → r[off + 2 * i]? = some v0 →
          r[off + 2 * i + 1]? = some v1 →
          e[i]? = some ((-1 : ℤ) ^ i * v0, (-1 : ℤ) ^ i * v1))) :=
  ⟨by decide, calls_independent_of_history paddedInstance _
    [.modulate, .demodulate 0, .modulate, .demodulate 2] [(1, 2), (3, 4), (5, 6)]
    [9, 9, 9, 9, 9, 9, 9, 9] rfl rfl (by decide) (by decide) (by decide) (by decide)⟩

/-- C15. The call `Demodulate(offset)` never mutates the receive buffer: for every `N` (a
`uint16_t`), every offset and every real buffer, whenever the call returns, the real buffer is
the one before the call, `nPoints` and the `configured` flag are unchanged, every access is a
read of the real buffer or a write of a sample `complexBuffer[i]` with `i < N`, and
`complexBuffer` keeps its length and its samples from index `N` on.  The call does return when
the window `[offset, offset + 2N)` lies inside the real buffer and below `2^32` and there are
at least `N` samples. -/
theorem demodulate_leaves_real_buffer (self : BandPassModulator α) (off : Nat)
    (hN : self.nPoints < 65536) :
    (∀ out, self.Demodulate off = .ok out →
      out.self.doubleBuffer = self.doubleBuffer ∧
      out.self.nPoints = self.nPoints ∧ out.self.configured = self.configured ∧
      (∀ a, a ∈ out.trace →
        (∃ j, a = .readDouble j) ∨ ∃ i p, a = .writeComplex i p ∧ i < self.nPoints) ∧
      (∀ cb, self.complexBuffer = some cb → ∃ cb', out.self.complexBuffer = some cb' ∧
        cb'.length = cb.length ∧ ∀ i, self.nPoints ≤ i → cb'[i]? = cb[i]?)) ∧
    (∀ cb db, self.complexBuffer = some cb → self.doubleBuffer = some db →
      self.nPoints ≤ cb.length → off + 2 * self.nPoints ≤ db.length →
      off + 2 * self.nPoints ≤ 4294967296 → ∃ out, self.Demodulate off = .ok out) := by
  constructor
  · intro out h
    obtain ⟨-, hn, hcfg, hd, hc, -, tr, htr, hall⟩ := demodulate_frame self off out hN h
    refine ⟨hd, hn, hcfg, ?_, hc⟩
    intro a ha
    simp only [mem, List.nil_append] at htr
    rw [htr] at ha
    exact hall a ha
  · intro cb db hc hd hcb hdb hoff
    obtain ⟨cb', hrun, -⟩ := demodulate_full self cb db off hc hd hN hcb hdb hoff
    exact ⟨_, hrun⟩

/-- Witness of C15: `N = 2`, offset 1 in `[9,1,2,-3,-4,9]`: the call returns and the real
buffer is as before. -/
theorem demodulate_leaves_real_buffer_witness :
    (offsetInstance.Demodulate 1).map (fun o => (o.self.doubleBuffer, o.self.complexBuffer)) =
      .ok (some [9, 1, 2, -3, -4, 9], some [(1, 2), (3, 4)]) ∧
    ((∀ out, offsetInstance.Demodulate 1 = .ok out →
      out.self.doubleBuffer = offsetInstance.doubleBuffer ∧
      out.self.nPoints = offsetInstance.nPoints ∧
      out.self.configured = offsetInstance.configured ∧
      (∀ a, a ∈ out.trace →
        (∃ j, a = .readDouble j) ∨
          ∃ i p, a = .writeComplex i p ∧ i < offsetInstance.nPoints) ∧
      (∀ cb, offsetInstance.complexBuffer = some cb →
        ∃ cb', out.self.complexBuffer = some cb' ∧
          cb'.length = cb.length ∧ ∀ i, offsetInstance.nPoints ≤ i → cb'[i]? = cb[i]?)) ∧
    (∀ cb db, offsetInstance.complexBuffer = some cb → offsetInstance.doubleBuffer = some db →
      offsetInstance.nPoints ≤ cb.length → 1 + 2 * offsetInstance.nPoints ≤ db.length →
      1 + 2 * offsetInstance.nPoints ≤ 4294967296 →
      ∃ out, offsetInstance.Demodulate 1 = .ok out)) :=
  ⟨by decide, demodulate_leaves_real_buffer offsetInstance 1 (by decide)⟩

/-- C19 (amended). In-bounds access under the size precondition: for every `N ≤ 65535` with a
`complexBuffer` of length `N`: when `doubleBuffer` has length `2N`, `Modulate()` returns 0,
reads only `complexBuffer` indices `< N` (the `i + 1` read of the even branch included), writes
only `doubleBuffer` indices `< 2N` and makes no other access; and for every offset with
`offset + 2N ≤ length(doubleBuffer)` and `offset + 2N ≤ 2^32`, `Demodulate(offset)` returns 0,
reads only `doubleBuffer` indices in `[offset, offset + 2N)`, writes only `complexBuffer`
indices `< N` and makes no other access. -/
theorem accesses_in_bounds (self : BandPassModulator α) (cb : List (α × α)) (db : List α)
    (hc : self.complexBuffer = some cb) (hd : self.doubleBuffer = some db)
    (hN : self.nPoints ≤ 65535) (hcb : cb.length = self.nPoints) :
    (db.length = 2 * self.nPoints →
      ∃ out, self.Modulate = .ok out ∧ out.ret = 0 ∧
        ∀ a, a ∈ out.trace →
          (∃ i p, a = .readComplex i p ∧ i < self.nPoints) ∨
          (∃ j, a = .writeDouble j ∧ j < 2 * self.nPoints)) ∧
    (∀ off, off + 2 * self.nPoints ≤ db.length → off + 2 * self.nPoints ≤ 4294967296 →
      ∃ out, self.Demodulate off = .ok out ∧ out.ret = 0 ∧
        ∀ a, a ∈ out.trace →
          (∃ j, a = .readDouble j ∧ off ≤ j ∧ j < off + 2 * self.nPoints) ∨
          (∃ i p, a = .writeComplex i p ∧ i < self.nPoints)) := by
  constructor
  · intro hdb
    obtain ⟨db', hrun, -⟩ := modulate_full self cb db hc hd (by omega) (by omega)
    refine ⟨_, hrun, rfl, ?_⟩
    intro a ha
    rcases mem_modulateTrace_kind _ _ ha with ⟨i, p, h⟩ | ⟨j, h⟩
    · subst h
      exact Or.inl ⟨i, p, rfl, (mem_modulateTrace_read _ i p).mp ha⟩
    · subst h
      exact Or.inr ⟨j, rfl, (mem_modulateTrace_write _ j).mp ha⟩
  · intro off hdb hoff
    obtain ⟨cb', hrun, -⟩ :=
      demodulate_full self cb db off hc hd (by omega) (by omega) hdb hoff
    refine ⟨_, hrun, rfl, ?_⟩
    intro a ha
    rcases mem_demodulateTrace_kind _ _ _ ha with ⟨j, h⟩ | ⟨i, p, h⟩
    · subst h
      have := (mem_demodulateTrace_read off _ j).mp ha
      exact Or.inl ⟨j, rfl, this.1, this.2⟩
    · subst h
      exact Or.inr ⟨i, p, rfl, (mem_demodulateTrace_write off _ i p).mp ha⟩

/-- Witness of C19 (amended): `N = 4` with buffers of 4 samples and 8 reals. -/
theorem accesses_in_bounds_witness :
    (([0, 0, 0, 0, 0, 0, 0, 0] : List ℤ).length = 2 * evenInstance.nPoints →
      ∃ out, evenInstance.Modulate = .ok out ∧ out.ret = 0 ∧
        ∀ a, a ∈ out.trace →
          (∃ i p, a = .readComplex i p ∧ i < evenInstance.nPoints) ∨
          (∃ j, a = .writeDouble j ∧ j < 2 * evenInstance.nPoints)) ∧
    (∀ off, off + 2 * evenInstance.nPoints ≤ ([0, 0, 0, 0, 0, 0, 0, 0] : List ℤ).length →
      off + 2 * evenInstance.nPoints ≤ 4294967296 →
      ∃ out, evenInstance.Demodulate off = .ok out ∧ out.ret = 0 ∧
        ∀ a, a ∈ out.trace →
          (∃ j, a = .readDouble j ∧ off ≤ j ∧ j < off + 2 * evenInstance.nPoints) ∨
          (∃ i p, a = .writeComplex i p ∧ i < evenInstance.nPoints)) :=
  accesses_in_bounds evenInstance [(1, 2), (3, 4), (5, 6), (7, 8)] [0, 0, 0, 0, 0, 0, 0, 0]
    rfl rfl (by decide) (by decide)

/-- C19 as stated fails when the window crosses `2^32`: with `N = 2`, two complex samples,
`offset = 2^32 - 2` and a real buffer of `2^32 + 2` elements (so `offset + 2N ≤ length`),
`Demodulate(offset)` reads `doubleBuffer[0]`, which is not in `[offset, offset + 2N)`. -/
theorem accesses_in_bounds_counterexample :
    wrapInstance.nPoints ≤ 65535 ∧
    ([(0, 0), (0, 0)] : List (ℤ × ℤ)).length = wrapInstance.nPoints ∧
    4294967294 + 2 * wrapInstance.nPoints ≤ wrapBuffer.length ∧
    ∃ out, wrapInstance.Demodulate 4294967294 = .ok out ∧
      Access.readDouble 0 ∈ out.trace ∧
      ¬ (4294967294 ≤ 0 ∧ 0 < 4294967294 + 2 * wrapInstance.nPoints) := by
  refine ⟨by decide, by decide, ?_, _, demodulate_wrap wrapBuffer (0, 0) (0, 0) 1 0 0 0 0
    (replicate_append_low _ _ _ _ (by norm_num)) (replicate_append_low _ _ _ _ (by norm_num))
    (replicate_append_low _ _ _ _ (by norm_num)) (replicate_append_low _ _ _ _ (by norm_num)),
    ?_, ?_⟩
  · show 4294967294 + 2 * 2 ≤ (List.replicate 4294967296 (0 : ℤ) ++ [1, 1]).length
    rw [replicate_append_length]
    decide
  · simp
  · decide

end BandPassModulator

namespace OFDMCodec

/-- C8. Return value of the streaming receive: `ProcessRxBuffer` returns 0 when
`FindSymbolStart` reports a negative value, and exactly `nBytes` when it reports an offset
`≥ 0`; no other value is returned. -/
theorem processRxBuffer_return {σ β : Type} (c : Collaborators σ β) (s : σ) (input : List β)
    (output : List Nat) (nBytes : Nat) :
    ((c.FindSymbolStart s input nBytes).1 < 0 →
      (ProcessRxBuffer c s input output nBytes).ret = 0) ∧
    (0 ≤ (c.FindSymbolStart s input nBytes).1 →
      (ProcessRxBuffer c s input output nBytes).ret = nBytes) ∧
    ((ProcessRxBuffer c s input output nBytes).ret = 0 ∨
      (ProcessRxBuffer c s input output nBytes).ret = nBytes) := by
  by_cases h : (c.FindSymbolStart s input nBytes).1 ≥ 0
  · have hr : (ProcessRxBuffer c s input output nBytes).ret = nBytes := by
      simp [ProcessRxBuffer, h]
    exact ⟨fun hneg => absurd h (by omega), fun _ => hr, Or.inr hr⟩
  · have hr : (ProcessRxBuffer c s input output nBytes).ret = 0 := by
      simp [ProcessRxBuffer, h]
    exact ⟨fun _ => hr, fun hpos => absurd hpos h, Or.inl hr⟩

/-- Witness of C8: a locator reporting -1 gives 0, a locator reporting offset 3 gives
`nBytes = 2`. -/
theorem processRxBuffer_return_witness :
    (ProcessRxBuffer (standIn (-1)) () [] [7, 7, 7] 2).ret = 0 ∧
    (ProcessRxBuffer (standIn 3) () [] [7, 7, 7] 2).ret = 2 :=
  ⟨(processRxBuffer_return (standIn (-1)) () [] [7, 7, 7] 2).1 (by decide),
   (processRxBuffer_return (standIn 3) () [] [7, 7, 7] 2).2.1 (by decide)⟩

/-- C9. Symbol-miss backpressure: whenever `FindSymbolStart` reports "not found" (a negative
value), `ProcessRxBuffer` leaves the output buffer as it was, its only collaborator call is
`FindSymbolStart` (the interleaver's `Demodulate`, the transform, the normalisation and the QAM
demapper are not invoked), and the codec state is the one the locator left. -/
theorem processRxBuffer_miss {σ β : Type} (c : Collaborators σ β) (s : σ) (input : List β)
    (output : List Nat) (nBytes : Nat) (hmiss : (c.FindSymbolStart s input nBytes).1 < 0) :
    (ProcessRxBuffer c s input output nBytes).output = output ∧
    (ProcessRxBuffer c s input output nBytes).calls = [.FindSymbolStart nBytes] ∧
    (ProcessRxBuffer c s input output nBytes).state = (c.FindSymbolStart s input nBytes).2 := by
  have h : ¬ ((c.FindSymbolStart s input nBytes).1 ≥ 0) := by omega
  simp [ProcessRxBuffer, h]

/-- Witness of C9: with a locator reporting -1 the output `[7,7,7]` is untouched, whereas the
same call with a locator reporting an offset overwrites it. -/
theorem processRxBuffer_miss_witness :
    ((ProcessRxBuffer (standIn (-1)) () [] [7, 7, 7] 2).output = [7, 7, 7] ∧
     (ProcessRxBuffer (standIn (-1)) () [] [7, 7, 7] 2).calls = [.FindSymbolStart 2] ∧
     (ProcessRxBuffer (standIn (-1)) () [] [7, 7, 7] 2).state =
       ((standIn (-1)).FindSymbolStart () [] 2).2) ∧
    (ProcessRxBuffer (standIn 3) () [] [7, 7, 7] 2).output = [255, 255, 7] :=
  ⟨processRxBuffer_miss (standIn (-1)) () [] [7, 7, 7] 2 (by decide), by decide⟩

/-- C10 (amended). A synchronization miss is not distinguishable from a genuine zero-length
request by the value `ProcessRxBuffer` returns: the value is 0 when the locator reports "not
found" (whatever `nBytes`), and 0 again when the locator reports a valid offset and the caller
requested `nBytes = 0`. -/
theorem processRxBuffer_miss_vs_zero_length {σ β σ' β' : Type} (c : Collaborators σ β) (s : σ)
    (input : List β) (output : List Nat) (nBytes : Nat) (c' : Collaborators σ' β') (s' : σ')
    (input' : List β') (output' : List Nat)
    (hmiss : (c.FindSymbolStart s input nBytes).1 < 0)
    (hfound : 0 ≤ (c'.FindSymbolStart s' input' 0).1) :
    (ProcessRxBuffer c s input output nBytes).ret = 0 ∧
    (ProcessRxBuffer c' s' input' output' 0).ret = 0 ∧
    (ProcessRxBuffer c s input output nBytes).ret =
      (ProcessRxBuffer c' s' input' output' 0).ret := by
  have h1 : (ProcessRxBuffer c s input output nBytes).ret = 0 := by
    have h : ¬ ((c.FindSymbolStart s input nBytes).1 ≥ 0) := by omega
    simp [ProcessRxBuffer, h]
  have h2 : (ProcessRxBuffer c' s' input' output' 0).ret = 0 := by
    have h : (c'.FindSymbolStart s' input' 0).1 ≥ 0 := hfound
    simp [ProcessRxBuffer, h]
  exact ⟨h1, h2, h1.trans h2.symm⟩

/-- Witness of C10 (amended): a miss with `nBytes = 2` and a hit at offset 3 with `nBytes = 0`
both return 0. -/
theorem processRxBuffer_miss_vs_zero_length_witness :
    (ProcessRxBuffer (standIn (-1)) () [] [7, 7, 7] 2).ret = 0 ∧
    (ProcessRxBuffer (standIn 3) () [] [7, 7, 7] 0).ret = 0 ∧
    (ProcessRxBuffer (standIn (-1)) () [] [7, 7, 7] 2).ret =
      (ProcessRxBuffer (standIn 3) () [] [7, 7, 7] 0).ret :=
  processRxBuffer_miss_vs_zero_length (standIn (-1)) () [] [7, 7, 7] 2 (standIn 3) () []
    [7, 7, 7] (by decide) (by decide)

/-- C10 as stated fails: the result of a miss (locator reports -1) and the result of a
zero-length request with a valid offset (locator reports 3, `nBytes = 0`) are the same value,
0, so the two do not differ. -/
theorem processRxBuffer_miss_vs_zero_length_counterexample :
    ((standIn (-1)).FindSymbolStart () [] 0).1 < 0 ∧
    0 ≤ ((standIn 3).FindSymbolStart () [] 0).1 ∧
    ¬ ((ProcessRxBuffer (standIn (-1)) () [] [7, 7, 7] 0).ret ≠
       (ProcessRxBuffer (standIn 3) () [] [7, 7, 7] 0).ret) := by
  decide

/-- C11 (amended). The routine `OFDMCodec::Decode` is not a no-op: `symbolStart` is a `size_t`,
so its initial value is `2^64 - 1` and the unsigned guard `symbolStart >= 0` is true; for every
input `Decode` calls `FindSymbolStart`, the transform, `Normalise` and the QAM demapper, in this
order (the Nyquist demodulator is not called), and the output buffer is the one the QAM
demapper leaves. -/
theorem decode_always_runs {σ β : Type} (c : Collaborators σ β) (s : σ) (input : List β)
    (output : List Nat) (nBytes : Nat) :
    sizeT (-1) = 18446744073709551615 ∧ sizeT (-1) ≥ 0 ∧
    (Decode c s input output nBytes).calls =
      [.FindSymbolStart nBytes, .ComputeTransform, .Normalise, .QamDemodulate nBytes] ∧
    (Decode c s input output nBytes).output =
      (c.QamDemodulate (c.Normalise (c.ComputeTransform (c.FindSymbolStart s input nBytes).2))
        output nBytes).1 ∧
    (Decode c s input output nBytes).state =
      (c.QamDemodulate (c.Normalise (c.ComputeTransform (c.FindSymbolStart s input nBytes).2))
        output nBytes).2 := by
  have h : sizeT (-1) ≥ 0 := Nat.zero_le _
  refine ⟨by decide, h, ?_, ?_, ?_⟩ <;> simp [Decode]

/-- C11 as stated fails: with stand-in collaborators (locator reporting offset 3, demapper
writing 255) `Decode` on the output `[7,7,7]` with `nBytes = 2` makes four collaborator calls
and leaves `[255,255,7]`; it is not a no-op. -/
theorem decode_always_runs_counterexample :
    (Decode (standIn 3) () [] [7, 7, 7] 2).calls =
      [.FindSymbolStart 2, .ComputeTransform, .Normalise, .QamDemodulate 2] ∧
    (Decode (standIn 3) () [] [7, 7, 7] 2).output = [255, 255, 7] ∧
    ¬ ((Decode (standIn 3) () [] [7, 7, 7] 2).calls = [] ∧
       (Decode (standIn 3) () [] [7, 7, 7] 2).output = [7, 7, 7]) := by
  decide

/-- C12. Encode sequencing and layout: for every input, configuration `(N, P)` with
`P ≤ length(output)` and collaborators, `Encode` calls, in this order and nothing else, the QAM
mapper on the input bytes, the transform on `&output[P]`, the in-place interleaver on the same
`&output[P]`, and the cyclic prefix framer on `output` with body length `2N` and prefix length
`P`.  The interleaver is handed the reals `T` left by the transform; the buffer `B` handed to
the framer holds from index `P` on the reals `M` left by the interleaver on `T`, and below `P`
the reals `output` had on entry.  The result is what the framer leaves. -/
theorem encode_sequence {σ β : Type} (c : TxCollaborators σ β) (N P : Nat) (s : σ)
    (input : List Nat) (output : List β) (nBytes : Nat) (hP : P ≤ output.length) :
    ∃ T M B : List β,
      T = (c.ComputeTransform (c.QamModulate s input nBytes) (output.drop P)).1 ∧
      M = (c.NyquistModulate
            (c.ComputeTransform (c.QamModulate s input nBytes) (output.drop P)).2 T).1 ∧
      B.drop P = M ∧ B.take P = output.take P ∧
      (Encode c N P s input output nBytes).calls =
        [.QamModulate input nBytes, .ComputeTransform P (output.drop P),
         .NyquistModulate P T, .AddCyclicPrefix B (2 * N) P] ∧
      (Encode c N P s input output nBytes).output =
        (c.AddCyclicPrefix
          (c.NyquistModulate
            (c.ComputeTransform (c.QamModulate s input nBytes) (output.drop P)).2 T).2
          B (2 * N) P).1 := by
  have hlen : (output.take P).length = P := by
    rw [List.length_take]; omega
  have hdrop : ∀ l : List β, (output.take P ++ l).drop P = l := by
    intro l
    rw [List.drop_append_of_le_length (by omega), List.drop_of_length_le (by omega),
      List.nil_append]
  have htake : ∀ l : List β, (output.take P ++ l).take P = output.take P := by
    intro l
    rw [List.take_append_of_le_length (by omega), List.take_of_length_le (by omega)]
  refine ⟨_, _, output.take P ++ (c.NyquistModulate
      (c.ComputeTransform (c.QamModulate s input nBytes) (output.drop P)).2
      (c.ComputeTransform (c.QamModulate s input nBytes) (output.drop P)).1).1,
    rfl, rfl, ?_, ?_, ?_, ?_⟩
  · exact hdrop _
  · exact htake _
  · simp only [Encode, hdrop, htake, Nat.mul_comm N 2]
  · simp only [Encode, hdrop, htake, Nat.mul_comm N 2]

/-- Witness of C12: `N = 2`, `P = 2`, a destination of `2N + P = 6` reals and the stand-in
collaborators; the framer is handed `[0,0,1,2,-3,-4]` and leaves `[-3,-4,1,2,-3,-4]`. -/
theorem encode_sequence_witness :
    ((Encode txStandIn 2 2 0 [65] [0, 0, 0, 0, 0, 0] 1).calls =
        [.QamModulate [65] 1, .ComputeTransform 2 [0, 0, 0, 0], .NyquistModulate 2 [1, 2, 3, 4],
         .AddCyclicPrefix [0, 0, 1, 2, -3, -4] 4 2] ∧
      (Encode txStandIn 2 2 0 [65] [0, 0, 0, 0, 0, 0] 1).output = [-3, -4, 1, 2, -3, -4]) ∧
    ∃ T M B : List ℤ,
      T = (txStandIn.ComputeTransform (txStandIn.QamModulate 0 [65] 1)
            (([0, 0, 0, 0, 0, 0] : List ℤ).drop 2)).1 ∧
      M = (txStandIn.NyquistModulate
            (txStandIn.ComputeTransform (txStandIn.QamModulate 0 [65] 1)
              (([0, 0, 0, 0, 0, 0] : List ℤ).drop 2)).2 T).1 ∧
      B.drop 2 = M ∧ B.take 2 = ([0, 0, 0, 0, 0, 0] : List ℤ).take 2 ∧
      (Encode txStandIn 2 2 0 [65] [0, 0, 0, 0, 0, 0] 1).calls =
        [.QamModulate [65] 1, .ComputeTransform 2 (([0, 0, 0, 0, 0, 0] : List ℤ).drop 2),
         .NyquistModulate 2 T, .AddCyclicPrefix B (2 * 2) 2] ∧
      (Encode txStandIn 2 2 0 [65] [0, 0, 0, 0, 0, 0] 1).output =
        (txStandIn.AddCyclicPrefix
          (txStandIn.NyquistModulate
            (txStandIn.ComputeTransform (txStandIn.QamModulate 0 [65] 1)
              (([0, 0, 0, 0, 0, 0] : List ℤ).drop 2)).2 T).2
          B (2 * 2) 2).1 :=
  ⟨by decide, encode_sequence txStandIn 2 2 0 [65] [0, 0, 0, 0, 0, 0] 1 (by decide)⟩

/-- C20. The routines `ProcessTxBuffer` and `Encode` are the same operation: for every input
byte buffer, `nBytes`, destination buffer, codec state, settings and collaborators they make
the same collaborator calls with the same arguments in the same order and leave the same
destination buffer and the same codec state. -/
theorem processTxBuffer_eq_encode {σ β : Type} (c : TxCollaborators σ β) (N P : Nat) (s : σ)
    (input : List Nat) (buffer : List β) (nBytes : Nat) :
    (ProcessTxBuffer c N P s input buffer nBytes).calls =
      (Encode c N P s input buffer nBytes).calls ∧
    (ProcessTxBuffer c N P s input buffer nBytes).output =
      (Encode c N P s input buffer nBytes).output ∧
    (ProcessTxBuffer c N P s input buffer nBytes).state =
      (Encode c N P s input buffer nBytes).state :=
  ⟨rfl, rfl, rfl⟩

end OFDMCodec

end Ofdmlib
